import Mathlib

/-!
Verification of the `level-jobs` durable work queue (`src/index.js`).

The queue keeps two partitions of an ordered key-value store, "work"
(queued jobs) and "pending" (dispatched jobs), moves the oldest "work"
entry into "pending" before invoking the worker, retries failed workers
with a bounded backoff sequence, and reports `drain` / `error` events.

The embedding models the single-threaded, callback-driven engine as an
explicit state machine: store writes take effect at issue time, every
asynchronous completion (put/batch/del callbacks, the recovery stream
`close` event, the backoff timer, worker completions) is an outstanding
`Task`, and a scheduler step picks one outstanding task together with
the outcome of the fallible operations it settles.  Emitted events are
recorded in a ghost trace.
-/

namespace LevelJobs

/-- Job keys: `timestamp()` keys are opaque, unique, lexicographically
increasing identifiers; we model them as naturals. -/
abbrev Key := Nat

/-- Stored payloads (the result of `stringify(payload)`), opaque here. -/
abbrev Payload := String

/-- Errors: an injected storage/worker error token, or the terminal
`new Error('max retries reached')` of the retry controller. -/
inductive Err where
  | io (n : Nat)
  | maxRetriesReached
deriving DecidableEq, Repr

/-- Observable events of a queue, in emission order (ghost trace).
`runJob k` records an invocation of the worker on job `k`
(`run(q, work, cb)` in the source); `cbOk`/`cbErr` record invocations of
a `push` callback. -/
inductive Ev where
  | error (e : Err)
  | drain
  | cbOk
  | cbErr (e : Err)
  | runJob (k : Key)
deriving DecidableEq, Repr

/-- A store partition (a sublevel): an association list from keys to
stored payloads. -/
abbrev Part := List (Key × Payload)

/-- `put` into a partition: overwrite the entry for `k` if present,
otherwise append it. -/
def putEntry (k : Key) (v : Payload) : Part → Part
  | [] => [(k, v)]
  | e :: rest => if e.1 = k then (k, v) :: rest else e :: putEntry k v rest

/-- `del` from a partition: drop the entry for `k`. -/
def delEntry (k : Key) : Part → Part
  | [] => []
  | e :: rest => if e.1 = k then delEntry k rest else e :: delEntry k rest

/-- Retrieve the payload stored under a key. -/
def lookupP (k : Key) : Part → Option Payload
  | [] => none
  | e :: rest => if e.1 = k then some e.2 else lookupP k rest

/-- The keys of a partition. -/
def keysOf (p : Part) : List Key :=
  p.map Prod.fst

/-- Modelled from the spec: `./peek` is part of this repository but not
under `src/`; per the spec it reads (without removing) the single oldest
entry of a partition, i.e. the entry with the smallest key, or nothing
when the partition is empty. -/
def peekMin : Part → Option (Key × Payload)
  | [] => none
  | e :: rest =>
    match peekMin rest with
    | none => some e
    | some m => some (if e.1 ≤ m.1 then e else m)

/-- The recovery stream: every entry of the source partition is written
(`put`) into the destination partition, in stream order. -/
def copyAll (src dst : Part) : Part :=
  src.foldl (fun acc e => putEntry e.1 e.2 acc) dst

/-! ### Partition lemmas -/

theorem keysOf_nil : keysOf [] = [] := rfl

theorem keysOf_cons (e : Key × Payload) (p : Part) :
    keysOf (e :: p) = e.1 :: keysOf p := rfl

theorem mem_keysOf_putEntry (k k' : Key) (v : Payload) (p : Part) :
    k' ∈ keysOf (putEntry k v p) ↔ k' = k ∨ k' ∈ keysOf p := by
  induction p with
  | nil => simp [putEntry, keysOf]
  | cons e rest ih =>
    by_cases h : e.1 = k
    · rw [putEntry, if_pos h, keysOf_cons, keysOf_cons, h]
      simp only [List.mem_cons]
      tauto
    · rw [putEntry, if_neg h, keysOf_cons, keysOf_cons]
      simp only [List.mem_cons, ih]
      tauto

theorem mem_keysOf_delEntry (k k' : Key) (p : Part) :
    k' ∈ keysOf (delEntry k p) ↔ k' ∈ keysOf p ∧ k' ≠ k := by
  induction p with
  | nil => simp [delEntry, keysOf]
  | cons e rest ih =>
    by_cases h : e.1 = k
    · rw [delEntry, if_pos h, keysOf_cons]
      simp only [List.mem_cons, ih]
      constructor
      · intro hx; exact ⟨Or.inr hx.1, hx.2⟩
      · rintro ⟨hx | hx, hne⟩
        · exact absurd (hx.trans h) hne
        · exact ⟨hx, hne⟩
    · rw [delEntry, if_neg h, keysOf_cons, keysOf_cons]
      simp only [List.mem_cons, ih]
      constructor
      · rintro (hx | hx)
        · exact ⟨Or.inl hx, fun he => h (hx ▸ he)⟩
        · exact ⟨Or.inr hx.1, hx.2⟩
      · rintro ⟨hx | hx, hne⟩
        · exact Or.inl hx
        · exact Or.inr ⟨hx, hne⟩

theorem nodup_keysOf_putEntry (k : Key) (v : Payload) (p : Part)
    (h : (keysOf p).Nodup) : (keysOf (putEntry k v p)).Nodup := by
  induction p with
  | nil => simp [putEntry, keysOf]
  | cons e rest ih =>
    rw [keysOf_cons] at h
    rcases List.nodup_cons.mp h with ⟨hne, hrest⟩
    by_cases he : e.1 = k
    · rw [putEntry, if_pos he, keysOf_cons]
      refine List.nodup_cons.mpr ⟨?_, hrest⟩
      rw [← he]; exact hne
    · rw [putEntry, if_neg he, keysOf_cons]
      refine List.nodup_cons.mpr ⟨?_, ih hrest⟩
      intro hmem
      rcases (mem_keysOf_putEntry k e.1 v rest).mp hmem with h1 | h1
      · exact he h1
      · exact hne h1

theorem nodup_keysOf_delEntry (k : Key) (p : Part)
    (h : (keysOf p).Nodup) : (keysOf (delEntry k p)).Nodup := by
  induction p with
  | nil => simp [delEntry, keysOf]
  | cons e rest ih =>
    rw [keysOf_cons] at h
    rcases List.nodup_cons.mp h with ⟨hne, hrest⟩
    by_cases he : e.1 = k
    · rw [delEntry, if_pos he]; exact ih hrest
    · rw [delEntry, if_neg he, keysOf_cons]
      refine List.nodup_cons.mpr ⟨?_, ih hrest⟩
      intro hmem
      exact hne ((mem_keysOf_delEntry k e.1 rest).mp hmem).1

theorem peekMin_mem (p : Part) (e : Key × Payload) (h : peekMin p = some e) :
    e ∈ p := by
  induction p generalizing e with
  | nil => simp [peekMin] at h
  | cons a rest ih =>
    rw [peekMin] at h
    cases hr : peekMin rest with
    | none =>
      rw [hr] at h
      have : a = e := by injection h
      exact this ▸ List.mem_cons_self a rest
    | some m =>
      rw [hr] at h
      have he : (if a.1 ≤ m.1 then a else m) = e := by injection h
      by_cases hle : a.1 ≤ m.1
      · rw [if_pos hle] at he
        exact he ▸ List.mem_cons_self a rest
      · rw [if_neg hle] at he
        exact he ▸ List.mem_cons_of_mem a (ih m hr)

theorem peekMin_none (p : Part) : peekMin p = none ↔ p = [] := by
  cases p with
  | nil => simp [peekMin]
  | cons a rest =>
    rw [peekMin]
    cases peekMin rest <;> simp

theorem peekMin_le (p : Part) (e : Key × Payload) (h : peekMin p = some e) :
    ∀ x ∈ p, e.1 ≤ x.1 := by
  induction p generalizing e with
  | nil => simp [peekMin] at h
  | cons a rest ih =>
    intro x hx
    rw [peekMin] at h
    cases hr : peekMin rest with
    | none =>
      rw [hr] at h
      have hae : a = e := by injection h
      have hrest : rest = [] := (peekMin_none rest).mp hr
      subst hrest
      rcases List.mem_cons.mp hx with hxa | hx2
      · rw [hxa, ← hae]
      · cases hx2
    | some m =>
      rw [hr] at h
      have he : (if a.1 ≤ m.1 then a else m) = e := by injection h
      rcases List.mem_cons.mp hx with hxa | hxr
      · rw [hxa]
        by_cases hle : a.1 ≤ m.1
        · rw [if_pos hle] at he; rw [← he]
        · rw [if_neg hle] at he; rw [← he]; exact le_of_not_le hle
      · have hm := ih m hr x hxr
        by_cases hle : a.1 ≤ m.1
        · rw [if_pos hle] at he; rw [← he]; exact le_trans hle hm
        · rw [if_neg hle] at he; rw [← he]; exact hm

theorem lookupP_putEntry_self (k : Key) (v : Payload) (p : Part) :
    lookupP k (putEntry k v p) = some v := by
  induction p with
  | nil => simp [putEntry, lookupP]
  | cons e rest ih =>
    by_cases h : e.1 = k
    · rw [putEntry, if_pos h, lookupP, if_pos rfl]
    · rw [putEntry, if_neg h, lookupP, if_neg h]
      exact ih

theorem lookupP_putEntry_ne (k k' : Key) (v : Payload) (p : Part)
    (h : k' ≠ k) : lookupP k' (putEntry k v p) = lookupP k' p := by
  induction p with
  | nil =>
    rw [putEntry, lookupP, lookupP, if_neg (fun he => h he.symm)]
    rfl
  | cons e rest ih =>
    by_cases he : e.1 = k
    · rw [putEntry, if_pos he, lookupP, lookupP,
        if_neg (fun hx => h hx.symm), if_neg (fun hx => h (he ▸ hx).symm)]
    · rw [putEntry, if_neg he, lookupP, lookupP]
      by_cases hk : e.1 = k'
      · rw [if_pos hk, if_pos hk]
      · rw [if_neg hk, if_neg hk]
        exact ih

theorem lookupP_delEntry_ne (k k' : Key) (p : Part) (h : k' ≠ k) :
    lookupP k' (delEntry k p) = lookupP k' p := by
  induction p with
  | nil => rfl
  | cons e rest ih =>
    by_cases he : e.1 = k
    · rw [delEntry, if_pos he, lookupP, if_neg (fun hx => h (he ▸ hx).symm)]
      exact ih
    · rw [delEntry, if_neg he, lookupP, lookupP]
      by_cases hk : e.1 = k'
      · rw [if_pos hk, if_pos hk]
      · rw [if_neg hk, if_neg hk]
        exact ih

theorem lookupP_isSome_iff (k : Key) (p : Part) :
    (lookupP k p).isSome = true ↔ k ∈ keysOf p := by
  induction p with
  | nil => simp [lookupP, keysOf]
  | cons e rest ih =>
    rw [lookupP, keysOf_cons]
    by_cases he : e.1 = k
    · rw [if_pos he]
      simp [he]
    · rw [if_neg he]
      simp only [List.mem_cons, ih]
      constructor
      · intro hx; exact Or.inr hx
      · rintro (hx | hx)
        · exact absurd hx.symm he
        · exact hx

theorem lookupP_copyAll_not_mem (src dst : Part) (k : Key)
    (h : k ∉ keysOf src) :
    lookupP k (copyAll src dst) = lookupP k dst := by
  induction src generalizing dst with
  | nil => rfl
  | cons e rest ih =>
    rw [keysOf_cons] at h
    have h1 : e.1 ≠ k := fun he => h (he ▸ List.mem_cons_self e.1 (keysOf rest))
    have h2 : k ∉ keysOf rest := fun hm => h (List.mem_cons_of_mem _ hm)
    rw [copyAll, List.foldl_cons, ← copyAll, ih _ h2,
      lookupP_putEntry_ne _ _ _ _ (fun hx => h1 hx.symm)]

theorem lookupP_copyAll_mem (src dst : Part) (k : Key) (v : Payload)
    (hnd : (keysOf src).Nodup) (h : (k, v) ∈ src) :
    lookupP k (copyAll src dst) = some v := by
  induction src generalizing dst with
  | nil => cases h
  | cons e rest ih =>
    rw [keysOf_cons] at hnd
    rcases List.nodup_cons.mp hnd with ⟨hne, hrest⟩
    rcases List.mem_cons.mp h with he | hr
    · rw [copyAll, List.foldl_cons, ← copyAll]
      rw [lookupP_copyAll_not_mem _ _ _ (by rw [← he] at hne; exact hne)]
      rw [← he]
      exact lookupP_putEntry_self k v dst
    · rw [copyAll, List.foldl_cons, ← copyAll]
      exact ih _ hrest hr

/-! ### Options

`Jobs(db, worker, options)`: a numeric `options` argument means
`{ maxConcurrency: options }`; the result is shallow-merged
(`xtend`) over `defaultOptions`. -/

/-- The `backoff` sub-options (passed to `backoff.exponential`). -/
structure BackoffOptions where
  randomisationFactor : Nat
  initialDelay : Nat
  maxDelay : Nat
deriving DecidableEq, Repr

/-- Fully resolved queue options.  `maxConcurrency = none` models the
default `Infinity` (no bound). -/
structure ResolvedOptions where
  maxConcurrency : Option Nat
  maxRetries : Nat
  backoff : BackoffOptions
deriving DecidableEq, Repr

/-- `defaultOptions` from the source. -/
def defaultOptions : ResolvedOptions :=
  { maxConcurrency := none
    maxRetries := 10
    backoff := { randomisationFactor := 0, initialDelay := 10, maxDelay := 300 } }

/-- A caller-supplied options object: each recognized key may be absent.
`xtend` is a shallow merge, so `backoff` is replaced wholesale. -/
structure PartialOptions where
  maxConcurrency : Option Nat
  maxRetries : Option Nat
  backoff : Option BackoffOptions
deriving DecidableEq, Repr

/-- A caller-supplied `options` argument: a number, an object, or absent. -/
inductive OptionsArg where
  | num (n : Nat)
  | obj (p : PartialOptions)
  | undef
deriving DecidableEq, Repr

/-- `if (typeof options == 'number') options = { maxConcurrency: options }`. -/
def normalizeOptions : OptionsArg → PartialOptions
  | .num n => { maxConcurrency := some n, maxRetries := none, backoff := none }
  | .obj p => p
  | .undef => { maxConcurrency := none, maxRetries := none, backoff := none }

/-- `options = xtend(defaultOptions, options)`: shallow merge, a present
key wins over the default. -/
def xtendOptions (p : PartialOptions) : ResolvedOptions :=
  { maxConcurrency :=
      match p.maxConcurrency with
      | some n => some n
      | none => defaultOptions.maxConcurrency
    maxRetries := p.maxRetries.getD defaultOptions.maxRetries
    backoff := p.backoff.getD defaultOptions.backoff }

/-- Option resolution performed by the `Queue` constructor. -/
def resolveOptions (a : OptionsArg) : ResolvedOptions :=
  xtendOptions (normalizeOptions a)

/-- The option fields the queue engine consults. -/
structure Opts where
  maxConcurrency : Option Nat
  maxRetries : Nat
deriving DecidableEq, Repr

/-- Engine view of resolved options. -/
def toEngineOpts (r : ResolvedOptions) : Opts :=
  { maxConcurrency := r.maxConcurrency, maxRetries := r.maxRetries }

/-- `concurrency < maxConcurrency` (with `none` = `Infinity`). -/
def underMax (c : Int) : Option Nat → Bool
  | none => true
  | some n => decide (c < (n : Int))

/-- `concurrency ≤ maxConcurrency` (with `none` = `Infinity`). -/
def leMax (c : Int) : Option Nat → Prop
  | none => True
  | some n => c ≤ (n : Int)

/-! ### The queue state machine -/

/-- The per-dispatch closure context shared by `poke`'s inner callbacks:
the job key, the stored payload (`work` in the source), the `done` flag,
and the `err` argument of the enclosing `poke` callback (always `none`
when a key was obtained; carried because `deletedPending` reads it). -/
structure JobCtx where
  key : Key
  work : Payload
  done : Bool
  pokeErr : Option Err
deriving DecidableEq, Repr

/-- Outstanding asynchronous completions.

* `pushCb k hasCb res` — the `put` callback of `push` (outcome fixed at
  issue time, when the write was or was not applied);
* `startDone` — the `close` event of the recovery write stream;
* `peekT` — an outstanding `peek(q._work, poke)`;
* `transferCb j res` — the `q._db.batch(..., transfered)` callback of the
  work→pending move;
* `workerFirst j` — a worker invocation whose completion runs `ran`;
* `backoffTimer j n` — a scheduled backoff, firing the retry `ready`
  event with `backoffNumber = n`;
* `workerRetry j n` — a retry worker invocation (`ranAgain`), issued when
  the sequence's backoff number has reached `n`;
* `delCb j res` — the `q._pending.del(key, deletedPending)` callback. -/
inductive Task where
  | pushCb (key : Key) (hasCb : Bool) (res : Option Err)
  | startDone
  | peekT
  | transferCb (j : JobCtx) (res : Option Err)
  | workerFirst (j : JobCtx)
  | backoffTimer (j : JobCtx) (n : Nat)
  | workerRetry (j : JobCtx) (n : Nat)
  | delCb (j : JobCtx) (res : Option Err)
deriving DecidableEq, Repr

/-- The queue's in-process state plus the durable store, the outstanding
completions, the emitted-event trace, and the ghost list `dead` of jobs
whose retry sequence emitted the terminal failure. -/
structure QState where
  work : Part
  pending : Part
  concurrency : Int
  starting : Bool
  flushing : Bool
  peeking : Bool
  needsFlush : Bool
  needsDrain : Bool
  nextKey : Key
  tasks : List Task
  trace : List Ev
  dead : List Key
deriving DecidableEq, Repr

/-- `q.emit(ev)`. -/
def emitEv (s : QState) (e : Ev) : QState :=
  { s with trace := s.trace ++ [e] }

/-- `flush(q)` entry guard: if there is capacity and no peek is underway,
mark `peeking`/`flushing` and issue the peek. -/
def flush (o : Opts) (s : QState) : QState :=
  if underMax s.concurrency o.maxConcurrency && !s.peeking then
    { s with peeking := true, flushing := true, tasks := s.tasks ++ [Task.peekT] }
  else s

/-- `maybeFlush(q)`: flush unless starting or already flushing, in which
case remember the request in `needsFlush`. -/
def maybeFlush (o : Opts) (s : QState) : QState :=
  if !s.starting && !s.flushing then flush o s
  else { s with needsFlush := true }

/-- A `backoff()` call on the episode's backoff object when its backoff
number is `n`: with `failAfter(maxRetries)`, the call emits `fail`
(→ `q.emit('error', new Error('max retries reached'))`) once
`n = maxRetries`, else schedules the next `ready`.  (External `backoff`
module, modelled from its contract.) -/
def backoffCall (o : Opts) (s : QState) (j : JobCtx) (n : Nat) : QState :=
  if n = o.maxRetries then
    { emitEv s (Ev.error Err.maxRetriesReached) with dead := s.dead ++ [j.key] }
  else
    { s with tasks := s.tasks ++ [Task.backoffTimer j n] }

/-- The success path of `ran` (no error, `done` not yet set): set `done`,
mark `needsDrain`, release the concurrency slot, and issue
`q._pending.del(key, deletedPending)` (applied now when it succeeds,
callback deferred). -/
def ranOk (s : QState) (j : JobCtx) (delRes : Option Err) : QState :=
  if j.done then s
  else
    let s1 := { s with needsDrain := true, concurrency := s.concurrency - 1 }
    let s2 :=
      match delRes with
      | none => { s1 with pending := delEntry j.key s1.pending }
      | some _ => s1
    { s2 with tasks := s2.tasks ++ [Task.delCb { j with done := true } delRes] }

/-- `ran(err)`: success runs the success path, failure enters
`handleRunError`, whose first `backoff()` call has backoff number 0. -/
def ranCb (o : Opts) (s : QState) (j : JobCtx)
    (res delRes : Option Err) : QState :=
  match res with
  | none => ranOk s j delRes
  | some _ => backoffCall o s j 0

/-- `ranAgain(err)`: a retry failure calls `backoff()` again (backoff
number now `n`), a retry success runs `ran()`. -/
def ranAgainCb (o : Opts) (s : QState) (j : JobCtx) (n : Nat)
    (res delRes : Option Err) : QState :=
  match res with
  | none => ranOk s j delRes
  | some _ => backoffCall o s j n

/-- The `poke(err, key, work)` callback of `peek`: clear `peeking`; with
a key, take a slot and issue the atomic work→pending batch (applied now
when it succeeds, `transfered` deferred); with no key, clear `flushing`
and serve `needsFlush` or `needsDrain`. -/
def poke (o : Opts) (s : QState) (batchRes : Option Err) : QState :=
  let s0 := { s with peeking := false }
  match peekMin s0.work with
  | some e =>
    let j : JobCtx := { key := e.1, work := e.2, done := false, pokeErr := none }
    let s1 := { s0 with concurrency := s0.concurrency + 1 }
    let s2 :=
      match batchRes with
      | none =>
        { s1 with
          work := delEntry e.1 s1.work
          pending := putEntry e.1 e.2 s1.pending }
      | some _ => s1
    { s2 with tasks := s2.tasks ++ [Task.transferCb j batchRes] }
  | none =>
    let s1 := { s0 with flushing := false }
    if s1.needsFlush then maybeFlush o { s1 with needsFlush := false }
    else if s1.needsDrain then emitEv { s1 with needsDrain := false } Ev.drain
    else s1

/-- `transfered(err)`: on batch failure restore `needsDrain`, release the
slot and report; on success invoke the worker (`run`); in both cases
call `flush(q)` again. -/
def transfered (o : Opts) (s : QState) (j : JobCtx) (res : Option Err) : QState :=
  match res with
  | some e =>
    flush o (emitEv { s with needsDrain := true, concurrency := s.concurrency - 1 }
      (Ev.error e))
  | none =>
    flush o { emitEv s (Ev.runJob j.key) with
      tasks := s.tasks ++ [Task.workerFirst j] }

/-- `deletedPending(_err)`: the source tests the *enclosing* `poke`
callback's `err` (always absent when a key was dispatched), not its own
`_err`, before emitting; then calls `flush(q)`. -/
def deletedPending (o : Opts) (s : QState) (j : JobCtx) (res : Option Err) : QState :=
  let s1 :=
    if j.pokeErr.isSome then
      match res with
      | some e => emitEv s (Ev.error e)
      | none => s
    else s
  flush o s1

/-- The recovery stream's `done`: the stream has written every "pending"
entry into "work"; clear `starting` and `maybeFlush`. -/
def startStep (o : Opts) (s : QState) : QState :=
  maybeFlush o { s with work := copyAll s.pending s.work, starting := false }

/-- Execute one outstanding completion.  `res` settles the fallible event
the task waits for (worker result, batch outcome at a peek); `delRes`
settles the `pending.del` issued inside a successful `ran`. -/
def doTask (o : Opts) (s : QState) (t : Task) (res delRes : Option Err) : QState :=
  match t with
  | .pushCb _ hasCb r =>
    let s1 :=
      match r, hasCb with
      | some e, true => emitEv s (Ev.cbErr e)
      | some e, false => emitEv s (Ev.error e)
      | none, true => emitEv s Ev.cbOk
      | none, false => s
    maybeFlush o s1
  | .startDone => startStep o s
  | .peekT => poke o s res
  | .transferCb j r => transfered o s j r
  | .workerFirst j => ranCb o s j res delRes
  | .backoffTimer j n =>
    { emitEv s (Ev.runJob j.key) with tasks := s.tasks ++ [Task.workerRetry j (n + 1)] }
  | .workerRetry j n => ranAgainCb o s j n res delRes
  | .delCb j r => deletedPending o s j r

/-- `Q.push(payload, cb)`: mark `needsDrain`, take a fresh `timestamp()`
key and issue the `put` into "work" (applied now when it succeeds,
callback deferred with the outcome). -/
def pushStep (s : QState) (v : Payload) (hasCb : Bool) (res : Option Err) : QState :=
  let k := s.nextKey
  let s1 := { s with needsDrain := true, nextKey := s.nextKey + 1 }
  let s2 :=
    match res with
    | none => { s1 with work := putEntry k v s1.work }
    | some _ => s1
  { s2 with tasks := s2.tasks ++ [Task.pushCb k hasCb res] }

/-- A scheduler action: a producer `push`, or delivery of one
outstanding completion with chosen outcomes. -/
inductive Act where
  | push (v : Payload) (hasCb : Bool) (res : Option Err)
  | deliver (t : Task) (res delRes : Option Err)
deriving DecidableEq, Repr

/-- One scheduler step.  Delivering a task not outstanding is a no-op. -/
def step (o : Opts) (s : QState) (a : Act) : QState :=
  match a with
  | .push v hasCb res => pushStep s v hasCb res
  | .deliver t res delRes =>
    if t ∈ s.tasks then doTask o { s with tasks := s.tasks.erase t } t res delRes
    else s

/-- Run a whole schedule. -/
def exec (o : Opts) (s : QState) (acts : List Act) : QState :=
  acts.foldl (step o) s

/-- The state right after the `Queue` constructor returns: flags as in
the source (`starting`, `needsDrain` set), the recovery stream running
(its `close` outstanding), given initial partition contents and the key
generator's next fresh key. -/
def initState (work0 pending0 : Part) (k0 : Key) : QState :=
  { work := work0
    pending := pending0
    concurrency := 0
    starting := true
    flushing := false
    peeking := false
    needsFlush := false
    needsDrain := true
    nextKey := k0
    tasks := [Task.startDone]
    trace := []
    dead := [] }

/-- Reachability under arbitrary schedules. -/
def Reachable (o : Opts) (s0 s : QState) : Prop :=
  ∃ acts, exec o s0 acts = s

/-- A well-formed initial "work" partition: distinct keys, all below the
key generator's next key. -/
def GoodPart (p : Part) (k0 : Key) : Prop :=
  (keysOf p).Nodup ∧ ∀ k ∈ keysOf p, k < k0

/-- The keys of the worker invocations recorded in a trace, in order. -/
def dispatches (tr : List Ev) : List Key :=
  tr.filterMap fun e =>
    match e with
    | .runJob k => some k
    | _ => none

/-- The error events recorded in a trace. -/
def traceErrors (tr : List Ev) : List Err :=
  tr.filterMap fun e =>
    match e with
    | .error err => some err
    | _ => none

/-! ### Task statistics -/

/-- An outstanding peek. -/
def isPeek : Task → Bool
  | .peekT => true
  | _ => false

/-- The outstanding recovery-stream completion. -/
def isStart : Task → Bool
  | .startDone => true
  | _ => false

/-- Tasks that may exist during the startup window (`push` put callbacks
and the recovery completion itself). -/
def isStartish : Task → Bool
  | .pushCb _ _ _ => true
  | .startDone => true
  | _ => false

/-- Tasks holding a concurrency slot: every stage of a dispatched job up
to (but not including) the post-success deletion callback. -/
def isSlot : Task → Bool
  | .transferCb _ _ => true
  | .workerFirst _ => true
  | .backoffTimer _ _ => true
  | .workerRetry _ _ => true
  | _ => false

/-- The `done` flag of the job context a task carries. -/
def taskDone : Task → Bool
  | .transferCb j _ => j.done
  | .workerFirst j => j.done
  | .backoffTimer j _ => j.done
  | .workerRetry j _ => j.done
  | _ => false

/-- The key of a job that was successfully moved into "pending" and may
still succeed or fail terminally. -/
def liveKey : Task → Option Key
  | .transferCb j none => some j.key
  | .workerFirst j => some j.key
  | .backoffTimer j _ => some j.key
  | .workerRetry j _ => some j.key
  | _ => none

/-- All live job keys among the outstanding tasks. -/
def liveKeys (ts : List Task) : List Key :=
  ts.filterMap liveKey

theorem countP_erase (f : Task → Bool) {ts : List Task} {t : Task}
    (h : t ∈ ts) :
    ts.countP f = (ts.erase t).countP f + (if f t then 1 else 0) := by
  have hp := List.perm_cons_erase h
  rw [hp.countP_eq f, List.countP_cons]

theorem countP_append_one (f : Task → Bool) (ts : List Task) (t : Task) :
    (ts ++ [t]).countP f = ts.countP f + (if f t then 1 else 0) := by
  rw [List.countP_append, List.countP_cons]
  by_cases hf : f t
  · simp [hf]
  · simp [hf]

theorem liveKeys_append_one (ts : List Task) (t : Task) :
    liveKeys (ts ++ [t]) = liveKeys ts ++ (liveKey t).toList := by
  rw [liveKeys, liveKeys, List.filterMap_append]
  cases h : liveKey t <;> simp [List.filterMap_cons, h]

theorem liveKeys_erase_perm {ts : List Task} {t : Task} (h : t ∈ ts) :
    List.Perm (liveKeys ts) ((liveKey t).toList ++ liveKeys (ts.erase t)) := by
  have hp := List.perm_cons_erase h
  have h2 := hp.filterMap liveKey
  rw [List.filterMap_cons] at h2
  cases hl : liveKey t
  · rw [hl] at h2; simpa [liveKeys] using h2
  · rw [hl] at h2; simpa [liveKeys] using h2

theorem mem_of_mem_erase_task {ts : List Task} {t t' : Task}
    (h : t' ∈ ts.erase t) : t' ∈ ts :=
  List.mem_of_mem_erase h

end LevelJobs

namespace LevelJobs

/-! ### The concurrency invariant (claim C5 and the slot accounting of C8)

`peekCnt`: exactly one outstanding peek iff `peeking`;
`peekLt`: while a peek is outstanding there is strictly spare capacity
(the `flush` guard held when it was issued and only decrements happened
since);
`concLe`/`concGe`: `concurrency` is bounded by `maxConcurrency` above and
by the outstanding slot-holding tasks plus the terminally failed jobs
below (hence it is never negative);
`jobDone`: every slot-holding task still carries `done = false`. -/
structure ConcInv (o : Opts) (s : QState) : Prop where
  peekCnt : s.tasks.countP isPeek = (if s.peeking then 1 else 0)
  peekLt : s.peeking = true → underMax s.concurrency o.maxConcurrency = true
  concLe : leMax s.concurrency o.maxConcurrency
  concGe : (s.tasks.countP isSlot : Int) + s.dead.length ≤ s.concurrency
  jobDone : ∀ t ∈ s.tasks, taskDone t = false

theorem leMax_of_underMax {c : Int} {m : Option Nat}
    (h : underMax c m = true) : leMax (c + 1) m := by
  cases m with
  | none => trivial
  | some n =>
    simp only [underMax, decide_eq_true_eq] at h
    simp only [leMax]
    omega

theorem leMax_pred {c : Int} {m : Option Nat} (h : leMax c m) :
    leMax (c - 1) m := by
  cases m with
  | none => trivial
  | some n =>
    simp only [leMax] at *
    omega

theorem underMax_pred {c : Int} {m : Option Nat} (h : underMax c m = true) :
    underMax (c - 1) m = true := by
  cases m with
  | none => rfl
  | some n =>
    simp only [underMax, decide_eq_true_eq] at *
    omega

theorem ConcInv_emitEv {o : Opts} {s : QState} (h : ConcInv o s) (e : Ev) :
    ConcInv o (emitEv s e) :=
  ⟨h.peekCnt, h.peekLt, h.concLe, h.concGe, h.jobDone⟩

theorem ConcInv_flush {o : Opts} {s : QState} (h : ConcInv o s) :
    ConcInv o (flush o s) := by
  rw [flush]
  split
  case isTrue hg =>
    have hg2 := hg
    rw [Bool.and_eq_true] at hg2
    rcases hg2 with ⟨hum, hnp⟩
    have hpk : s.peeking = false := by
      cases hp : s.peeking
      · rfl
      · rw [hp] at hnp; cases hnp
    refine ⟨?_, ?_, ?_, ?_, ?_⟩
    · show (s.tasks ++ [Task.peekT]).countP isPeek = (if true then 1 else 0)
      rw [countP_append_one]
      rw [h.peekCnt, hpk]
      rfl
    · intro _
      exact hum
    · exact h.concLe
    · show (((s.tasks ++ [Task.peekT]).countP isSlot : Int) + s.dead.length ≤ s.concurrency)
      rw [countP_append_one]
      have := h.concGe
      simp [isSlot]
      omega
    · intro t ht
      rcases List.mem_append.mp ht with ht1 | ht1
      · exact h.jobDone t ht1
      · rw [List.mem_singleton.mp ht1]; rfl
  case isFalse => exact h

theorem ConcInv_maybeFlush {o : Opts} {s : QState} (h : ConcInv o s) :
    ConcInv o (maybeFlush o s) := by
  rw [maybeFlush]
  split
  · exact ConcInv_flush h
  · exact ⟨h.peekCnt, h.peekLt, h.concLe, h.concGe, h.jobDone⟩

theorem ConcInv_pushStep {o : Opts} {s : QState} (h : ConcInv o s)
    (v : Payload) (hasCb : Bool) (res : Option Err) :
    ConcInv o (pushStep s v hasCb res) := by
  have hfields : ∀ (s1 : QState),
      s1.peeking = s.peeking → s1.concurrency = s.concurrency →
      s1.dead = s.dead → s1.tasks = s.tasks ++ [Task.pushCb s.nextKey hasCb res] →
      ConcInv o s1 := by
    intro s1 hpk hc hd ht
    refine ⟨?_, ?_, ?_, ?_, ?_⟩
    · rw [ht, hpk, countP_append_one, h.peekCnt]
      rfl
    · rw [hpk, hc]; exact h.peekLt
    · rw [hc]; exact h.concLe
    · rw [ht, hc, hd, countP_append_one]
      have := h.concGe
      simp [isSlot]
      omega
    · rw [ht]
      intro t ht1
      rcases List.mem_append.mp ht1 with ht2 | ht2
      · exact h.jobDone t ht2
      · rw [List.mem_singleton.mp ht2]; rfl
  cases res with
  | none => exact hfields _ rfl rfl rfl rfl
  | some e => exact hfields _ rfl rfl rfl rfl

end LevelJobs

namespace LevelJobs

theorem ConcInv_erase {o : Opts} {s : QState} (h : ConcInv o s) {t : Task}
    (hmem : t ∈ s.tasks) (hp : isPeek t = false) (hs : isSlot t = false) :
    ConcInv o { s with tasks := s.tasks.erase t } := by
  have hcp := countP_erase isPeek hmem
  have hcs := countP_erase isSlot hmem
  rw [hp] at hcp
  rw [hs] at hcs
  simp at hcp hcs
  refine ⟨?_, h.peekLt, h.concLe, ?_, ?_⟩
  · show (s.tasks.erase t).countP isPeek = (if s.peeking then 1 else 0)
    rw [← hcp]; exact h.peekCnt
  · show ((s.tasks.erase t).countP isSlot : Int) + s.dead.length ≤ s.concurrency
    rw [← hcs]; exact h.concGe
  · intro t' ht'
    exact h.jobDone t' (List.mem_of_mem_erase ht')


theorem countP_eq_erase_of_false (f : Task → Bool) {ts : List Task} {t : Task}
    (hmem : t ∈ ts) (hf : f t = false) :
    (ts.erase t).countP f = ts.countP f := by
  have h2 := countP_erase f hmem
  rw [hf] at h2
  simp at h2
  omega

theorem countP_erase_succ (f : Task → Bool) {ts : List Task} {t : Task}
    (hmem : t ∈ ts) (hf : f t = true) :
    ts.countP f = (ts.erase t).countP f + 1 := by
  have h2 := countP_erase f hmem
  rw [hf] at h2
  simpa using h2

theorem countP_append_of_false (f : Task → Bool) (ts : List Task) (t : Task)
    (hf : f t = false) :
    (ts ++ [t]).countP f = ts.countP f := by
  rw [countP_append_one, hf]
  simp

theorem countP_append_succ (f : Task → Bool) (ts : List Task) (t : Task)
    (hf : f t = true) :
    (ts ++ [t]).countP f = ts.countP f + 1 := by
  rw [countP_append_one, hf]
  simp

theorem ConcInv_doTask {o : Opts} {s : QState} {t : Task}
    (hmem : t ∈ s.tasks) (h : ConcInv o s) (res delRes : Option Err) :
    ConcInv o (doTask o { s with tasks := s.tasks.erase t } t res delRes) := by
  cases t with
  | pushCb key hasCb r =>
    have i1 := ConcInv_erase h hmem rfl rfl
    simp only [doTask]
    cases r with
    | none =>
      cases hasCb with
      | true => exact ConcInv_maybeFlush (ConcInv_emitEv i1 _)
      | false => exact ConcInv_maybeFlush i1
    | some e =>
      cases hasCb with
      | true => exact ConcInv_maybeFlush (ConcInv_emitEv i1 _)
      | false => exact ConcInv_maybeFlush (ConcInv_emitEv i1 _)
  | startDone =>
    have i1 := ConcInv_erase h hmem rfl rfl
    simp only [doTask, startStep]
    exact ConcInv_maybeFlush ⟨i1.peekCnt, i1.peekLt, i1.concLe, i1.concGe, i1.jobDone⟩
  | peekT =>
    have hpk : s.peeking = true := by
      cases hq : s.peeking
      · exfalso
        have h0 := h.peekCnt
        rw [hq] at h0
        have h2 := countP_erase_succ isPeek hmem rfl
        rw [h0] at h2
        cases h2
      · rfl
    have hum := h.peekLt hpk
    have hcp := countP_erase_succ isPeek hmem rfl
    rw [h.peekCnt, hpk, if_pos rfl] at hcp
    have hcp0 : (s.tasks.erase Task.peekT).countP isPeek = 0 := by omega
    have hcs := countP_eq_erase_of_false isSlot hmem rfl
    have hge := h.concGe
    simp only [doTask, poke]
    cases hpm : peekMin s.work with
    | some e =>
      have base : ∀ (s3 : QState),
          s3.peeking = false →
          s3.concurrency = s.concurrency + 1 →
          s3.dead = s.dead →
          s3.tasks = s.tasks.erase Task.peekT ++
            [Task.transferCb { key := e.1, work := e.2, done := false, pokeErr := none } res] →
          ConcInv o s3 := by
        intro s3 hpk3 hc3 hd3 ht3
        refine ⟨?_, ?_, ?_, ?_, ?_⟩
        · rw [ht3, hpk3, countP_append_of_false isPeek _
            (Task.transferCb { key := e.1, work := e.2, done := false, pokeErr := none } res) rfl,
            hcp0]
          rfl
        · intro hx; rw [hpk3] at hx; cases hx
        · rw [hc3]; exact leMax_of_underMax hum
        · rw [ht3, hc3, hd3, countP_append_succ isSlot _
            (Task.transferCb { key := e.1, work := e.2, done := false, pokeErr := none } res) rfl]
          omega
        · rw [ht3]
          intro t' ht'
          rcases List.mem_append.mp ht' with h1 | h1
          · exact h.jobDone t' (List.mem_of_mem_erase h1)
          · rw [List.mem_singleton.mp h1]; rfl
      cases res with
      | none =>
        apply base <;> rfl
      | some err =>
        apply base <;> rfl
    | none =>
      have base : ∀ (s3 : QState),
          s3.peeking = false →
          s3.concurrency = s.concurrency →
          s3.dead = s.dead →
          s3.tasks = s.tasks.erase Task.peekT →
          ConcInv o s3 := by
        intro s3 hpk3 hc3 hd3 ht3
        refine ⟨?_, ?_, ?_, ?_, ?_⟩
        · rw [ht3, hpk3, hcp0]
          rfl
        · intro hx; rw [hpk3] at hx; cases hx
        · rw [hc3]; exact h.concLe
        · rw [ht3, hc3, hd3]
          omega
        · rw [ht3]
          intro t' ht'
          exact h.jobDone t' (List.mem_of_mem_erase ht')
      by_cases hnf : s.needsFlush
      · rw [if_pos hnf]
        refine ConcInv_maybeFlush ?_
        apply base <;> rfl
      · rw [if_neg hnf]
        by_cases hnd : s.needsDrain
        · rw [if_pos hnd]
          refine ConcInv_emitEv ?_ _
          apply base <;> rfl
        · rw [if_neg hnd]
          apply base <;> rfl
  | transferCb j r =>
    have hjd : j.done = false := h.jobDone _ hmem
    have hcpE := countP_eq_erase_of_false isPeek hmem rfl
    have hcsE := countP_erase_succ isSlot hmem rfl
    have hge := h.concGe
    simp only [doTask, transfered]
    cases r with
    | some e =>
      apply ConcInv_flush
      apply ConcInv_emitEv
      refine ⟨hcpE.trans h.peekCnt, ?_, leMax_pred h.concLe, ?_, ?_⟩
      · intro hx
        exact underMax_pred (h.peekLt hx)
      · show ((s.tasks.erase (Task.transferCb j (some e))).countP isSlot : Int) +
          s.dead.length ≤ s.concurrency - 1
        omega
      · intro t' ht'
        exact h.jobDone t' (List.mem_of_mem_erase ht')
    | none =>
      apply ConcInv_flush
      refine ⟨?_, h.peekLt, h.concLe, ?_, ?_⟩
      · show (s.tasks.erase (Task.transferCb j none) ++ [Task.workerFirst j]).countP isPeek =
          (if s.peeking then 1 else 0)
        rw [countP_append_of_false isPeek _ (Task.workerFirst j) rfl]
        exact hcpE.trans h.peekCnt
      · show ((s.tasks.erase (Task.transferCb j none) ++ [Task.workerFirst j]).countP isSlot : Int) +
          s.dead.length ≤ s.concurrency
        rw [countP_append_succ isSlot _ (Task.workerFirst j) rfl]
        omega
      · intro t' ht'
        rcases List.mem_append.mp ht' with h1 | h1
        · exact h.jobDone t' (List.mem_of_mem_erase h1)
        · rw [List.mem_singleton.mp h1]
          exact hjd
  | workerFirst j =>
    have hjd : j.done = false := h.jobDone _ hmem
    have hcpE := countP_eq_erase_of_false isPeek hmem rfl
    have hcsE := countP_erase_succ isSlot hmem rfl
    have hge := h.concGe
    simp only [doTask, ranCb]
    cases res with
    | none =>
      simp only [ranOk, hjd]
      rw [if_neg Bool.false_ne_true]
      have base : ∀ (s3 : QState),
          s3.peeking = s.peeking →
          s3.concurrency = s.concurrency - 1 →
          s3.dead = s.dead →
          s3.tasks = s.tasks.erase (Task.workerFirst j) ++
            [Task.delCb { j with done := true } delRes] →
          ConcInv o s3 := by
        intro s3 hpk3 hc3 hd3 ht3
        refine ⟨?_, ?_, ?_, ?_, ?_⟩
        · rw [ht3, hpk3, countP_append_of_false isPeek _
            (Task.delCb { j with done := true } delRes) rfl]
          exact hcpE.trans h.peekCnt
        · intro hx; rw [hpk3] at hx; rw [hc3]
          exact underMax_pred (h.peekLt hx)
        · rw [hc3]; exact leMax_pred h.concLe
        · rw [ht3, hc3, hd3, countP_append_of_false isSlot _
            (Task.delCb { j with done := true } delRes) rfl]
          omega
        · rw [ht3]
          intro t' ht'
          rcases List.mem_append.mp ht' with h1 | h1
          · exact h.jobDone t' (List.mem_of_mem_erase h1)
          · rw [List.mem_singleton.mp h1]; rfl
      cases delRes with
      | none => apply base <;> rfl
      | some e => apply base <;> rfl
    | some e =>
      simp only [backoffCall]
      by_cases hmr : (0 : Nat) = o.maxRetries
      · rw [if_pos hmr]
        refine ⟨hcpE.trans h.peekCnt, h.peekLt, h.concLe, ?_, ?_⟩
        · show ((s.tasks.erase (Task.workerFirst j)).countP isSlot : Int) +
            (s.dead ++ [j.key]).length ≤ s.concurrency
          rw [List.length_append, List.length_singleton]
          push_cast
          omega
        · intro t' ht'
          exact h.jobDone t' (List.mem_of_mem_erase ht')
      · rw [if_neg hmr]
        refine ⟨?_, h.peekLt, h.concLe, ?_, ?_⟩
        · show (s.tasks.erase (Task.workerFirst j) ++ [Task.backoffTimer j 0]).countP isPeek =
            (if s.peeking then 1 else 0)
          rw [countP_append_of_false isPeek _ (Task.backoffTimer j 0) rfl]
          exact hcpE.trans h.peekCnt
        · show ((s.tasks.erase (Task.workerFirst j) ++ [Task.backoffTimer j 0]).countP isSlot : Int) +
            s.dead.length ≤ s.concurrency
          rw [countP_append_succ isSlot _ (Task.backoffTimer j 0) rfl]
          omega
        · intro t' ht'
          rcases List.mem_append.mp ht' with h1 | h1
          · exact h.jobDone t' (List.mem_of_mem_erase h1)
          · rw [List.mem_singleton.mp h1]
            exact hjd
  | backoffTimer j n =>
    have hjd : j.done = false := h.jobDone _ hmem
    have hcpE := countP_eq_erase_of_false isPeek hmem rfl
    have hcsE := countP_erase_succ isSlot hmem rfl
    have hge := h.concGe
    simp only [doTask]
    refine ⟨?_, h.peekLt, h.concLe, ?_, ?_⟩
    · show (s.tasks.erase (Task.backoffTimer j n) ++ [Task.workerRetry j (n + 1)]).countP isPeek =
        (if s.peeking then 1 else 0)
      rw [countP_append_of_false isPeek _ (Task.workerRetry j (n + 1)) rfl]
      exact hcpE.trans h.peekCnt
    · show ((s.tasks.erase (Task.backoffTimer j n) ++ [Task.workerRetry j (n + 1)]).countP isSlot : Int) +
        s.dead.length ≤ s.concurrency
      rw [countP_append_succ isSlot _ (Task.workerRetry j (n + 1)) rfl]
      omega
    · intro t' ht'
      rcases List.mem_append.mp ht' with h1 | h1
      · exact h.jobDone t' (List.mem_of_mem_erase h1)
      · rw [List.mem_singleton.mp h1]
        exact hjd
  | workerRetry j n =>
    have hjd : j.done = false := h.jobDone _ hmem
    have hcpE := countP_eq_erase_of_false isPeek hmem rfl
    have hcsE := countP_erase_succ isSlot hmem rfl
    have hge := h.concGe
    simp only [doTask, ranAgainCb]
    cases res with
    | none =>
      simp only [ranOk, hjd]
      rw [if_neg Bool.false_ne_true]
      have base : ∀ (s3 : QState),
          s3.peeking = s.peeking →
          s3.concurrency = s.concurrency - 1 →
          s3.dead = s.dead →
          s3.tasks = s.tasks.erase (Task.workerRetry j n) ++
            [Task.delCb { j with done := true } delRes] →
          ConcInv o s3 := by
        intro s3 hpk3 hc3 hd3 ht3
        refine ⟨?_, ?_, ?_, ?_, ?_⟩
        · rw [ht3, hpk3, countP_append_of_false isPeek _
            (Task.delCb { j with done := true } delRes) rfl]
          exact hcpE.trans h.peekCnt
        · intro hx; rw [hpk3] at hx; rw [hc3]
          exact underMax_pred (h.peekLt hx)
        · rw [hc3]; exact leMax_pred h.concLe
        · rw [ht3, hc3, hd3, countP_append_of_false isSlot _
            (Task.delCb { j with done := true } delRes) rfl]
          omega
        · rw [ht3]
          intro t' ht'
          rcases List.mem_append.mp ht' with h1 | h1
          · exact h.jobDone t' (List.mem_of_mem_erase h1)
          · rw [List.mem_singleton.mp h1]; rfl
      cases delRes with
      | none => apply base <;> rfl
      | some e => apply base <;> rfl
    | some e =>
      simp only [backoffCall]
      by_cases hmr : n = o.maxRetries
      · rw [if_pos hmr]
        refine ⟨hcpE.trans h.peekCnt, h.peekLt, h.concLe, ?_, ?_⟩
        · show ((s.tasks.erase (Task.workerRetry j n)).countP isSlot : Int) +
            (s.dead ++ [j.key]).length ≤ s.concurrency
          rw [List.length_append, List.length_singleton]
          push_cast
          omega
        · intro t' ht'
          exact h.jobDone t' (List.mem_of_mem_erase ht')
      · rw [if_neg hmr]
        refine ⟨?_, h.peekLt, h.concLe, ?_, ?_⟩
        · show (s.tasks.erase (Task.workerRetry j n) ++ [Task.backoffTimer j n]).countP isPeek =
            (if s.peeking then 1 else 0)
          rw [countP_append_of_false isPeek _ (Task.backoffTimer j n) rfl]
          exact hcpE.trans h.peekCnt
        · show ((s.tasks.erase (Task.workerRetry j n) ++ [Task.backoffTimer j n]).countP isSlot : Int) +
            s.dead.length ≤ s.concurrency
          rw [countP_append_succ isSlot _ (Task.backoffTimer j n) rfl]
          omega
        · intro t' ht'
          rcases List.mem_append.mp ht' with h1 | h1
          · exact h.jobDone t' (List.mem_of_mem_erase h1)
          · rw [List.mem_singleton.mp h1]
            exact hjd
  | delCb j r =>
    have i1 := ConcInv_erase h hmem rfl rfl
    simp only [doTask, deletedPending]
    by_cases hpe : j.pokeErr.isSome
    · rw [if_pos hpe]
      cases r with
      | some e => exact ConcInv_flush (ConcInv_emitEv i1 _)
      | none => exact ConcInv_flush i1
    · rw [if_neg hpe]
      exact ConcInv_flush i1

theorem ConcInv_step {o : Opts} {s : QState} (h : ConcInv o s) (a : Act) :
    ConcInv o (step o s a) := by
  cases a with
  | push v hasCb res => exact ConcInv_pushStep h v hasCb res
  | deliver t res delRes =>
    simp only [step]
    by_cases hmem : t ∈ s.tasks
    · rw [if_pos hmem]
      exact ConcInv_doTask hmem h res delRes
    · rw [if_neg hmem]
      exact h

theorem ConcInv_exec {o : Opts} {s : QState} (h : ConcInv o s)
    (acts : List Act) : ConcInv o (exec o s acts) := by
  induction acts generalizing s with
  | nil => exact h
  | cons a rest ih => exact ih (ConcInv_step h a)

theorem ConcInv_init (o : Opts) (work0 pending0 : Part) (k0 : Key) :
    ConcInv o (initState work0 pending0 k0) := by
  refine ⟨rfl, ?_, ?_, ?_, ?_⟩
  · intro hx; cases hx
  · show leMax 0 o.maxConcurrency
    cases hm : o.maxConcurrency with
    | none => trivial
    | some n =>
      show (0 : Int) ≤ (n : Int)
      exact Int.natCast_nonneg n
  · show (([Task.startDone] : List Task).countP isSlot : Int) + (([] : List Key)).length ≤ 0
    simp [isSlot]
  · intro t ht
    rw [List.mem_singleton.mp ht]
    rfl


/-! ### The key/partition invariant (claims C1 and C8)

From a startup whose "pending" partition is empty: the two partitions
have well-formed disjoint key sets (`disj` is the partition-exclusivity
invariant), every stored key is below the key generator's next key,
nothing but `push` callbacks and the recovery completion is outstanding
during the startup window, and the keys of live dispatched jobs together
with the terminally failed ones are distinct and all present in
"pending". -/
structure KeyInv (s : QState) : Prop where
  ndW : (keysOf s.work).Nodup
  ndP : (keysOf s.pending).Nodup
  disj : ∀ k, k ∈ keysOf s.work → k ∉ keysOf s.pending
  bound : ∀ k, k ∈ keysOf s.work ∨ k ∈ keysOf s.pending → k < s.nextKey
  startPend : s.starting = true → s.pending = []
  startTasks : s.starting = true → ∀ t ∈ s.tasks, isStartish t = true
  startCnt : s.tasks.countP isStart = (if s.starting then 1 else 0)
  liveDead : (liveKeys s.tasks ++ s.dead).Nodup
  livePend : ∀ k, k ∈ liveKeys s.tasks ++ s.dead → k ∈ keysOf s.pending

theorem copyAll_nil (dst : Part) : copyAll [] dst = dst := rfl

theorem mem_liveKeys_of_task {ts : List Task} {t : Task} {k : Key}
    (hmem : t ∈ ts) (hl : liveKey t = some k) : k ∈ liveKeys ts :=
  List.mem_filterMap.mpr ⟨t, hmem, hl⟩

theorem liveKeys_erase_of_none {ts : List Task} {t : Task}
    (hmem : t ∈ ts) (hl : liveKey t = none) :
    List.Perm (liveKeys ts) (liveKeys (ts.erase t)) := by
  have hp := liveKeys_erase_perm hmem
  rw [hl] at hp
  simpa using hp

theorem liveKeys_erase_of_some {ts : List Task} {t : Task} {k : Key}
    (hmem : t ∈ ts) (hl : liveKey t = some k) :
    List.Perm (liveKeys ts) (k :: liveKeys (ts.erase t)) := by
  have hp := liveKeys_erase_perm hmem
  rw [hl] at hp
  simpa using hp

theorem liveKeys_append_none (ts : List Task) (t : Task)
    (hl : liveKey t = none) : liveKeys (ts ++ [t]) = liveKeys ts := by
  rw [liveKeys_append_one, hl]
  simp

theorem liveKeys_append_some (ts : List Task) (t : Task) (k : Key)
    (hl : liveKey t = some k) : liveKeys (ts ++ [t]) = liveKeys ts ++ [k] := by
  rw [liveKeys_append_one, hl]
  rfl

theorem KeyInv_emitEv {s : QState} (h : KeyInv s) (e : Ev) :
    KeyInv (emitEv s e) :=
  ⟨h.ndW, h.ndP, h.disj, h.bound, h.startPend, h.startTasks, h.startCnt,
    h.liveDead, h.livePend⟩

theorem KeyInv_flush {o : Opts} {s : QState} (h : KeyInv s)
    (hst : s.starting = false) : KeyInv (flush o s) := by
  rw [flush]
  split
  case isTrue hg =>
    refine ⟨h.ndW, h.ndP, h.disj, h.bound, ?_, ?_, ?_, ?_, ?_⟩
    · intro hx; rw [hst] at hx; cases hx
    · intro hx; rw [hst] at hx; cases hx
    · show (s.tasks ++ [Task.peekT]).countP isStart = (if s.starting then 1 else 0)
      rw [countP_append_of_false isStart _ Task.peekT rfl]
      exact h.startCnt
    · show (liveKeys (s.tasks ++ [Task.peekT]) ++ s.dead).Nodup
      rw [liveKeys_append_none _ Task.peekT rfl]
      exact h.liveDead
    · intro k hk
      apply h.livePend
      rw [liveKeys_append_none _ Task.peekT rfl] at hk
      exact hk
  case isFalse => exact h

theorem KeyInv_maybeFlush {o : Opts} {s : QState} (h : KeyInv s) :
    KeyInv (maybeFlush o s) := by
  rw [maybeFlush]
  split
  case isTrue hg =>
    have hst : s.starting = false := by
      have hg2 := hg
      rw [Bool.and_eq_true] at hg2
      cases hq : s.starting
      · rfl
      · rw [hq] at hg2; rcases hg2 with ⟨h1, _⟩; cases h1
    exact KeyInv_flush h hst
  case isFalse =>
    exact ⟨h.ndW, h.ndP, h.disj, h.bound, h.startPend, h.startTasks, h.startCnt,
      h.liveDead, h.livePend⟩

theorem KeyInv_pushStep {s : QState} (h : KeyInv s)
    (v : Payload) (hasCb : Bool) (res : Option Err) :
    KeyInv (pushStep s v hasCb res) := by
  have hkw : s.nextKey ∉ keysOf s.work := fun hx =>
    absurd (h.bound _ (Or.inl hx)) (lt_irrefl _)
  have hkp : s.nextKey ∉ keysOf s.pending := fun hx =>
    absurd (h.bound _ (Or.inr hx)) (lt_irrefl _)
  have base : ∀ (s3 : QState),
      (s3.work = putEntry s.nextKey v s.work ∨ s3.work = s.work) →
      s3.pending = s.pending →
      s3.starting = s.starting →
      s3.nextKey = s.nextKey + 1 →
      s3.dead = s.dead →
      s3.tasks = s.tasks ++ [Task.pushCb s.nextKey hasCb res] →
      KeyInv s3 := by
    intro s3 hw hp hs hn hd ht
    refine ⟨?_, ?_, ?_, ?_, ?_, ?_, ?_, ?_, ?_⟩
    · rcases hw with hw | hw
      · rw [hw]; exact nodup_keysOf_putEntry _ _ _ h.ndW
      · rw [hw]; exact h.ndW
    · rw [hp]; exact h.ndP
    · intro k hk
      rw [hp]
      rcases hw with hw | hw
      · rw [hw] at hk
        rcases (mem_keysOf_putEntry _ _ _ _).mp hk with hk1 | hk1
        · rw [hk1]; exact hkp
        · exact h.disj k hk1
      · rw [hw] at hk
        exact h.disj k hk
    · intro k hk
      rw [hn]
      rw [hp] at hk
      rcases hk with hk | hk
      · rcases hw with hw | hw
        · rw [hw] at hk
          rcases (mem_keysOf_putEntry _ _ _ _).mp hk with hk1 | hk1
          · rw [hk1]; exact Nat.lt_succ_self _
          · exact Nat.lt_succ_of_lt (h.bound k (Or.inl hk1))
        · rw [hw] at hk
          exact Nat.lt_succ_of_lt (h.bound k (Or.inl hk))
      · exact Nat.lt_succ_of_lt (h.bound k (Or.inr hk))
    · rw [hs, hp]; exact h.startPend
    · rw [hs, ht]
      intro hst t ht1
      rcases List.mem_append.mp ht1 with ht2 | ht2
      · exact h.startTasks hst t ht2
      · rw [List.mem_singleton.mp ht2]; rfl
    · rw [ht, hs, countP_append_of_false isStart _ (Task.pushCb s.nextKey hasCb res) rfl]
      exact h.startCnt
    · rw [ht, hd, liveKeys_append_none _ (Task.pushCb s.nextKey hasCb res) rfl]
      exact h.liveDead
    · intro k hk
      rw [hp]
      apply h.livePend
      rw [ht, hd, liveKeys_append_none _ (Task.pushCb s.nextKey hasCb res) rfl] at hk
      exact hk
  cases res with
  | none => exact base _ (Or.inl rfl) rfl rfl rfl rfl rfl
  | some e => exact base _ (Or.inr rfl) rfl rfl rfl rfl rfl


theorem KeyInv_erase {s : QState} (h : KeyInv s) {t : Task}
    (hmem : t ∈ s.tasks) (hstart : isStart t = false)
    (hlive : liveKey t = none) :
    KeyInv { s with tasks := s.tasks.erase t } := by
  have hper := (liveKeys_erase_of_none hmem hlive).append_right s.dead
  refine ⟨h.ndW, h.ndP, h.disj, h.bound, h.startPend, ?_, ?_, ?_, ?_⟩
  · intro hq t' ht'
    exact h.startTasks hq t' (List.mem_of_mem_erase ht')
  · show (s.tasks.erase t).countP isStart = (if s.starting then 1 else 0)
    rw [countP_eq_erase_of_false isStart hmem hstart]
    exact h.startCnt
  · exact hper.nodup_iff.mp h.liveDead
  · intro k hk
    exact h.livePend k (hper.mem_iff.mpr hk)

theorem KeyInv_of_fields {s : QState} (h : KeyInv s) : ∀ (s3 : QState),
    s3.work = s.work → s3.pending = s.pending → s3.starting = s.starting →
    s3.nextKey = s.nextKey → s3.dead = s.dead → s3.tasks = s.tasks →
    KeyInv s3 := by
  intro s3 hw hp hs hn hd ht
  refine ⟨?_, ?_, ?_, ?_, ?_, ?_, ?_, ?_, ?_⟩
  · rw [hw]; exact h.ndW
  · rw [hp]; exact h.ndP
  · intro k hk
    rw [hp]
    rw [hw] at hk
    exact h.disj k hk
  · intro k hk
    rw [hn]
    rw [hw, hp] at hk
    exact h.bound k hk
  · intro hx
    rw [hp]
    exact h.startPend (hs.symm.trans hx)
  · intro hx t2 ht2
    rw [ht] at ht2
    exact h.startTasks (hs.symm.trans hx) t2 ht2
  · rw [ht, hs]; exact h.startCnt
  · rw [ht, hd]; exact h.liveDead
  · intro k hk
    rw [hp]
    rw [ht, hd] at hk
    exact h.livePend k hk

theorem KeyInv_doTask {o : Opts} {s : QState} {t : Task}
    (hmem : t ∈ s.tasks) (h : KeyInv s) (res delRes : Option Err) :
    KeyInv (doTask o { s with tasks := s.tasks.erase t } t res delRes) := by
  cases t with
  | pushCb key hasCb r =>
    have i1 := KeyInv_erase h hmem rfl rfl
    simp only [doTask]
    cases r with
    | none =>
      cases hasCb with
      | true => exact KeyInv_maybeFlush (KeyInv_emitEv i1 _)
      | false => exact KeyInv_maybeFlush i1
    | some e =>
      cases hasCb with
      | true => exact KeyInv_maybeFlush (KeyInv_emitEv i1 _)
      | false => exact KeyInv_maybeFlush (KeyInv_emitEv i1 _)
  | startDone =>
    have hstart2 : s.starting = true := by
      cases hq : s.starting
      · exfalso
        have h0 := h.startCnt
        rw [hq] at h0
        have h2 := countP_erase_succ isStart hmem rfl
        rw [h0] at h2
        cases h2
      · rfl
    have hpend : s.pending = [] := h.startPend hstart2
    have hw : copyAll s.pending s.work = s.work := by rw [hpend]; rfl
    have hcnt := countP_erase_succ isStart hmem rfl
    rw [h.startCnt, hstart2, if_pos rfl] at hcnt
    have hc0 : (s.tasks.erase Task.startDone).countP isStart = 0 := by omega
    have hper := (liveKeys_erase_of_none hmem rfl).append_right s.dead
    simp only [doTask, startStep]
    refine KeyInv_maybeFlush ?_
    refine ⟨?_, h.ndP, ?_, ?_, ?_, ?_, ?_, ?_, ?_⟩
    · show (keysOf (copyAll s.pending s.work)).Nodup
      rw [hw]; exact h.ndW
    · intro k hk
      show k ∉ keysOf s.pending
      rw [hw] at hk
      exact h.disj k hk
    · intro k hk
      rw [hw] at hk
      exact h.bound k hk
    · intro hx; cases hx
    · intro hx; cases hx
    · show (s.tasks.erase Task.startDone).countP isStart = (if false then 1 else 0)
      rw [hc0]
      rfl
    · exact hper.nodup_iff.mp h.liveDead
    · intro k hk
      exact h.livePend k (hper.mem_iff.mpr hk)
  | peekT =>
    have hst : s.starting = false := by
      cases hq : s.starting
      · rfl
      · exact absurd (h.startTasks hq _ hmem) Bool.false_ne_true
    have hcs := countP_eq_erase_of_false isStart hmem rfl
    have hperE := (liveKeys_erase_of_none hmem rfl).append_right s.dead
    have hndE := hperE.nodup_iff.mp h.liveDead
    simp only [doTask, poke]
    cases hpm : peekMin s.work with
    | some e =>
      have hkw : e.1 ∈ keysOf s.work :=
        List.mem_map_of_mem Prod.fst (peekMin_mem _ _ hpm)
      have hkp : e.1 ∉ keysOf s.pending := h.disj e.1 hkw
      have hknot : e.1 ∉ liveKeys (s.tasks.erase Task.peekT) ++ s.dead := by
        intro hx
        exact hkp (h.livePend e.1 (hperE.mem_iff.mpr hx))
      cases res with
      | none =>
        have base : ∀ (s3 : QState),
            s3.work = delEntry e.1 s.work →
            s3.pending = putEntry e.1 e.2 s.pending →
            s3.starting = s.starting →
            s3.nextKey = s.nextKey →
            s3.dead = s.dead →
            s3.tasks = s.tasks.erase Task.peekT ++
              [Task.transferCb { key := e.1, work := e.2, done := false, pokeErr := none } none] →
            KeyInv s3 := by
          intro s3 hw3 hp3 hs3 hn3 hd3 ht3
          have hlk3 : liveKeys s3.tasks = liveKeys (s.tasks.erase Task.peekT) ++ [e.1] := by
            rw [ht3, liveKeys_append_some _
              (Task.transferCb { key := e.1, work := e.2, done := false, pokeErr := none } none)
              e.1 rfl]
          have hper2 : List.Perm
              ((liveKeys (s.tasks.erase Task.peekT) ++ [e.1]) ++ s.dead)
              (e.1 :: (liveKeys (s.tasks.erase Task.peekT) ++ s.dead)) :=
            (List.perm_append_singleton e.1 _).append_right s.dead
          refine ⟨?_, ?_, ?_, ?_, ?_, ?_, ?_, ?_, ?_⟩
          · rw [hw3]; exact nodup_keysOf_delEntry _ _ h.ndW
          · rw [hp3]; exact nodup_keysOf_putEntry _ _ _ h.ndP
          · intro k hk
            rw [hw3] at hk
            rw [hp3]
            rcases (mem_keysOf_delEntry _ _ _).mp hk with ⟨hk1, hk2⟩
            intro hk3
            rcases (mem_keysOf_putEntry _ _ _ _).mp hk3 with hk4 | hk4
            · exact hk2 hk4
            · exact h.disj k hk1 hk4
          · intro k hk
            rw [hn3]
            rcases hk with hk | hk
            · rw [hw3] at hk
              exact h.bound k (Or.inl ((mem_keysOf_delEntry _ _ _).mp hk).1)
            · rw [hp3] at hk
              rcases (mem_keysOf_putEntry _ _ _ _).mp hk with hk4 | hk4
              · rw [hk4]; exact h.bound e.1 (Or.inl hkw)
              · exact h.bound k (Or.inr hk4)
          · intro hx; rw [hs3, hst] at hx; cases hx
          · intro hx; rw [hs3, hst] at hx; cases hx
          · rw [ht3, hs3, countP_append_of_false isStart _
              (Task.transferCb { key := e.1, work := e.2, done := false, pokeErr := none } none) rfl,
              hcs]
            exact h.startCnt
          · rw [hlk3, hd3]
            exact hper2.nodup_iff.mpr (List.nodup_cons.mpr ⟨hknot, hndE⟩)
          · intro k hk
            rw [hlk3, hd3] at hk
            rw [hp3]
            have hk2 := hper2.mem_iff.mp hk
            rcases List.mem_cons.mp hk2 with hk3 | hk3
            · rw [hk3]
              exact (mem_keysOf_putEntry _ _ _ _).mpr (Or.inl rfl)
            · exact (mem_keysOf_putEntry _ _ _ _).mpr
                (Or.inr (h.livePend k (hperE.mem_iff.mpr hk3)))
        apply base <;> rfl
      | some err =>
        have base : ∀ (s3 : QState),
            s3.work = s.work →
            s3.pending = s.pending →
            s3.starting = s.starting →
            s3.nextKey = s.nextKey →
            s3.dead = s.dead →
            s3.tasks = s.tasks.erase Task.peekT ++
              [Task.transferCb { key := e.1, work := e.2, done := false, pokeErr := none } (some err)] →
            KeyInv s3 := by
          intro s3 hw3 hp3 hs3 hn3 hd3 ht3
          have hlk3 : liveKeys s3.tasks = liveKeys (s.tasks.erase Task.peekT) := by
            rw [ht3, liveKeys_append_none _
              (Task.transferCb { key := e.1, work := e.2, done := false, pokeErr := none } (some err)) rfl]
          refine ⟨?_, ?_, ?_, ?_, ?_, ?_, ?_, ?_, ?_⟩
          · rw [hw3]; exact h.ndW
          · rw [hp3]; exact h.ndP
          · intro k hk; rw [hw3] at hk; rw [hp3]; exact h.disj k hk
          · intro k hk
            rw [hn3]
            rw [hw3, hp3] at hk
            exact h.bound k hk
          · intro hx; rw [hs3, hst] at hx; cases hx
          · intro hx; rw [hs3, hst] at hx; cases hx
          · rw [ht3, hs3, countP_append_of_false isStart _
              (Task.transferCb { key := e.1, work := e.2, done := false, pokeErr := none } (some err)) rfl,
              hcs]
            exact h.startCnt
          · rw [hlk3, hd3]
            exact hndE
          · intro k hk
            rw [hlk3, hd3] at hk
            rw [hp3]
            exact h.livePend k (hperE.mem_iff.mpr hk)
        apply base <;> rfl
    | none =>
      have i1 := KeyInv_erase h hmem rfl rfl
      by_cases hnf : s.needsFlush
      · rw [if_pos hnf]
        refine KeyInv_maybeFlush ?_
        apply KeyInv_of_fields i1 <;> rfl
      · rw [if_neg hnf]
        by_cases hnd : s.needsDrain
        · rw [if_pos hnd]
          refine KeyInv_emitEv ?_ _
          apply KeyInv_of_fields i1 <;> rfl
        · rw [if_neg hnd]
          apply KeyInv_of_fields i1 <;> rfl
  | transferCb j r =>
    have hst : s.starting = false := by
      cases hq : s.starting
      · rfl
      · exact absurd (h.startTasks hq _ hmem) Bool.false_ne_true
    have hcs := countP_eq_erase_of_false isStart hmem rfl
    simp only [doTask, transfered]
    cases r with
    | some e =>
      have i1 := KeyInv_erase h hmem rfl rfl
      refine KeyInv_flush ?_ hst
      refine KeyInv_emitEv ?_ _
      apply KeyInv_of_fields i1 <;> rfl
    | none =>
      have hperS := (liveKeys_erase_of_some hmem rfl).append_right s.dead
      have hp2 : List.Perm
          ((liveKeys (s.tasks.erase (Task.transferCb j none)) ++ [j.key]) ++ s.dead)
          ((j.key :: liveKeys (s.tasks.erase (Task.transferCb j none))) ++ s.dead) :=
        (List.perm_append_singleton j.key _).append_right s.dead
      refine KeyInv_flush ?_ hst
      refine ⟨h.ndW, h.ndP, h.disj, h.bound, ?_, ?_, ?_, ?_, ?_⟩
      · intro hx; rw [hst] at hx; cases hx
      · intro hx; rw [hst] at hx; cases hx
      · show (s.tasks.erase (Task.transferCb j none) ++ [Task.workerFirst j]).countP isStart =
          (if s.starting then 1 else 0)
        rw [countP_append_of_false isStart _ (Task.workerFirst j) rfl, hcs]
        exact h.startCnt
      · show (liveKeys (s.tasks.erase (Task.transferCb j none) ++ [Task.workerFirst j]) ++
          s.dead).Nodup
        rw [liveKeys_append_some _ (Task.workerFirst j) j.key rfl]
        exact hp2.nodup_iff.mpr (hperS.nodup_iff.mp h.liveDead)
      · intro k hk
        show k ∈ keysOf s.pending
        rw [liveKeys_append_some _ (Task.workerFirst j) j.key rfl] at hk
        exact h.livePend k (hperS.mem_iff.mpr (hp2.mem_iff.mp hk))
  | workerFirst j =>
    have hst : s.starting = false := by
      cases hq : s.starting
      · rfl
      · exact absurd (h.startTasks hq _ hmem) Bool.false_ne_true
    have hcs := countP_eq_erase_of_false isStart hmem rfl
    have hperS := (liveKeys_erase_of_some hmem rfl).append_right s.dead
    have hnd2 := hperS.nodup_iff.mp h.liveDead
    rw [List.cons_append] at hnd2
    rcases List.nodup_cons.mp hnd2 with ⟨hknot, hndE⟩
    have hmemJ : j.key ∈ keysOf s.pending :=
      h.livePend j.key (List.mem_append.mpr (Or.inl (mem_liveKeys_of_task hmem rfl)))
    have hweak : ∀ k, k ∈ liveKeys (s.tasks.erase (Task.workerFirst j)) ++ s.dead →
        k ∈ keysOf s.pending := by
      intro k hk
      exact h.livePend k (hperS.mem_iff.mpr (List.mem_cons_of_mem j.key hk))
    simp only [doTask, ranCb]
    cases res with
    | none =>
      cases hjd : j.done with
      | true =>
        simp only [ranOk, hjd]
        simp only [if_true]
        refine ⟨h.ndW, h.ndP, h.disj, h.bound, h.startPend, ?_, ?_, hndE, hweak⟩
        · intro hq t' ht'
          exact h.startTasks hq t' (List.mem_of_mem_erase ht')
        · show (s.tasks.erase (Task.workerFirst j)).countP isStart =
            (if s.starting then 1 else 0)
          rw [hcs]; exact h.startCnt
      | false =>
        simp only [ranOk, hjd]
        rw [if_neg Bool.false_ne_true]
        have base : ∀ (s3 : QState),
            (s3.pending = delEntry j.key s.pending ∨ s3.pending = s.pending) →
            s3.work = s.work →
            s3.starting = s.starting →
            s3.nextKey = s.nextKey →
            s3.dead = s.dead →
            s3.tasks = s.tasks.erase (Task.workerFirst j) ++
              [Task.delCb { j with done := true } delRes] →
            KeyInv s3 := by
          intro s3 hp3 hw3 hs3 hn3 hd3 ht3
          have hlk3 : liveKeys s3.tasks = liveKeys (s.tasks.erase (Task.workerFirst j)) := by
            rw [ht3, liveKeys_append_none _ (Task.delCb { j with done := true } delRes) rfl]
          have hsub : ∀ k, k ∈ keysOf s3.pending → k ∈ keysOf s.pending := by
            intro k hk
            rcases hp3 with hp3 | hp3
            · rw [hp3] at hk
              exact ((mem_keysOf_delEntry _ _ _).mp hk).1
            · rw [hp3] at hk; exact hk
          refine ⟨?_, ?_, ?_, ?_, ?_, ?_, ?_, ?_, ?_⟩
          · rw [hw3]; exact h.ndW
          · rcases hp3 with hp3 | hp3
            · rw [hp3]; exact nodup_keysOf_delEntry _ _ h.ndP
            · rw [hp3]; exact h.ndP
          · intro k hk hk2
            rw [hw3] at hk
            exact h.disj k hk (hsub k hk2)
          · intro k hk
            rw [hn3]
            rcases hk with hk | hk
            · rw [hw3] at hk; exact h.bound k (Or.inl hk)
            · exact h.bound k (Or.inr (hsub k hk))
          · intro hx; rw [hs3, hst] at hx; cases hx
          · intro hx; rw [hs3, hst] at hx; cases hx
          · rw [ht3, hs3, countP_append_of_false isStart _
              (Task.delCb { j with done := true } delRes) rfl, hcs]
            exact h.startCnt
          · rw [hlk3, hd3]
            exact hndE
          · intro k hk
            rw [hlk3, hd3] at hk
            have hk2 : k ∈ keysOf s.pending := hweak k hk
            have hkne : k ≠ j.key := by
              intro he
              rw [he] at hk
              exact hknot hk
            rcases hp3 with hp3 | hp3
            · rw [hp3]
              exact (mem_keysOf_delEntry _ _ _).mpr ⟨hk2, hkne⟩
            · rw [hp3]; exact hk2
        cases delRes with
        | none => apply base <;> first | exact Or.inl rfl | rfl
        | some e => apply base <;> first | exact Or.inr rfl | rfl
    | some e =>
      simp only [backoffCall]
      by_cases hmr : (0 : Nat) = o.maxRetries
      · rw [if_pos hmr]
        refine ⟨h.ndW, h.ndP, h.disj, h.bound, ?_, ?_, ?_, ?_, ?_⟩
        · intro hx; rw [hst] at hx; cases hx
        · intro hx; rw [hst] at hx; cases hx
        · show (s.tasks.erase (Task.workerFirst j)).countP isStart =
            (if s.starting then 1 else 0)
          rw [hcs]; exact h.startCnt
        · show (liveKeys (s.tasks.erase (Task.workerFirst j)) ++ (s.dead ++ [j.key])).Nodup
          rw [← List.append_assoc]
          refine ((List.perm_append_singleton j.key _).nodup_iff).mpr ?_
          exact List.nodup_cons.mpr ⟨hknot, hndE⟩
        · intro k hk
          show k ∈ keysOf s.pending
          rcases List.mem_append.mp hk with hk1 | hk1
          · exact hweak k (List.mem_append.mpr (Or.inl hk1))
          · rcases List.mem_append.mp hk1 with hk2 | hk2
            · exact hweak k (List.mem_append.mpr (Or.inr hk2))
            · rw [List.mem_singleton.mp hk2]
              exact hmemJ
      · rw [if_neg hmr]
        have hp2 : List.Perm
            ((liveKeys (s.tasks.erase (Task.workerFirst j)) ++ [j.key]) ++ s.dead)
            ((j.key :: liveKeys (s.tasks.erase (Task.workerFirst j))) ++ s.dead) :=
          (List.perm_append_singleton j.key _).append_right s.dead
        refine ⟨h.ndW, h.ndP, h.disj, h.bound, ?_, ?_, ?_, ?_, ?_⟩
        · intro hx; rw [hst] at hx; cases hx
        · intro hx; rw [hst] at hx; cases hx
        · show (s.tasks.erase (Task.workerFirst j) ++ [Task.backoffTimer j 0]).countP isStart =
            (if s.starting then 1 else 0)
          rw [countP_append_of_false isStart _ (Task.backoffTimer j 0) rfl, hcs]
          exact h.startCnt
        · show (liveKeys (s.tasks.erase (Task.workerFirst j) ++ [Task.backoffTimer j 0]) ++
            s.dead).Nodup
          rw [liveKeys_append_some _ (Task.backoffTimer j 0) j.key rfl]
          exact hp2.nodup_iff.mpr (hperS.nodup_iff.mp h.liveDead)
        · intro k hk
          show k ∈ keysOf s.pending
          rw [liveKeys_append_some _ (Task.backoffTimer j 0) j.key rfl] at hk
          exact h.livePend k (hperS.mem_iff.mpr (hp2.mem_iff.mp hk))
  | backoffTimer j n =>
    have hst : s.starting = false := by
      cases hq : s.starting
      · rfl
      · exact absurd (h.startTasks hq _ hmem) Bool.false_ne_true
    have hcs := countP_eq_erase_of_false isStart hmem rfl
    have hperS := (liveKeys_erase_of_some hmem rfl).append_right s.dead
    have hp2 : List.Perm
        ((liveKeys (s.tasks.erase (Task.backoffTimer j n)) ++ [j.key]) ++ s.dead)
        ((j.key :: liveKeys (s.tasks.erase (Task.backoffTimer j n))) ++ s.dead) :=
      (List.perm_append_singleton j.key _).append_right s.dead
    simp only [doTask]
    refine ⟨h.ndW, h.ndP, h.disj, h.bound, ?_, ?_, ?_, ?_, ?_⟩
    · intro hx; rw [hst] at hx; cases hx
    · intro hx; rw [hst] at hx; cases hx
    · show (s.tasks.erase (Task.backoffTimer j n) ++ [Task.workerRetry j (n + 1)]).countP isStart =
        (if s.starting then 1 else 0)
      rw [countP_append_of_false isStart _ (Task.workerRetry j (n + 1)) rfl, hcs]
      exact h.startCnt
    · show (liveKeys (s.tasks.erase (Task.backoffTimer j n) ++ [Task.workerRetry j (n + 1)]) ++
        s.dead).Nodup
      rw [liveKeys_append_some _ (Task.workerRetry j (n + 1)) j.key rfl]
      exact hp2.nodup_iff.mpr (hperS.nodup_iff.mp h.liveDead)
    · intro k hk
      show k ∈ keysOf s.pending
      rw [liveKeys_append_some _ (Task.workerRetry j (n + 1)) j.key rfl] at hk
      exact h.livePend k (hperS.mem_iff.mpr (hp2.mem_iff.mp hk))
  | workerRetry j n =>
    have hst : s.starting = false := by
      cases hq : s.starting
      · rfl
      · exact absurd (h.startTasks hq _ hmem) Bool.false_ne_true
    have hcs := countP_eq_erase_of_false isStart hmem rfl
    have hperS := (liveKeys_erase_of_some hmem rfl).append_right s.dead
    have hnd2 := hperS.nodup_iff.mp h.liveDead
    rw [List.cons_append] at hnd2
    rcases List.nodup_cons.mp hnd2 with ⟨hknot, hndE⟩
    have hmemJ : j.key ∈ keysOf s.pending :=
      h.livePend j.key (List.mem_append.mpr (Or.inl (mem_liveKeys_of_task hmem rfl)))
    have hweak : ∀ k, k ∈ liveKeys (s.tasks.erase (Task.workerRetry j n)) ++ s.dead →
        k ∈ keysOf s.pending := by
      intro k hk
      exact h.livePend k (hperS.mem_iff.mpr (List.mem_cons_of_mem j.key hk))
    simp only [doTask, ranAgainCb]
    cases res with
    | none =>
      cases hjd : j.done with
      | true =>
        simp only [ranOk, hjd]
        simp only [if_true]
        refine ⟨h.ndW, h.ndP, h.disj, h.bound, h.startPend, ?_, ?_, hndE, hweak⟩
        · intro hq t' ht'
          exact h.startTasks hq t' (List.mem_of_mem_erase ht')
        · show (s.tasks.erase (Task.workerRetry j n)).countP isStart =
            (if s.starting then 1 else 0)
          rw [hcs]; exact h.startCnt
      | false =>
        simp only [ranOk, hjd]
        rw [if_neg Bool.false_ne_true]
        have base : ∀ (s3 : QState),
            (s3.pending = delEntry j.key s.pending ∨ s3.pending = s.pending) →
            s3.work = s.work →
            s3.starting = s.starting →
            s3.nextKey = s.nextKey →
            s3.dead = s.dead →
            s3.tasks = s.tasks.erase (Task.workerRetry j n) ++
              [Task.delCb { j with done := true } delRes] →
            KeyInv s3 := by
          intro s3 hp3 hw3 hs3 hn3 hd3 ht3
          have hlk3 : liveKeys s3.tasks = liveKeys (s.tasks.erase (Task.workerRetry j n)) := by
            rw [ht3, liveKeys_append_none _ (Task.delCb { j with done := true } delRes) rfl]
          have hsub : ∀ k, k ∈ keysOf s3.pending → k ∈ keysOf s.pending := by
            intro k hk
            rcases hp3 with hp3 | hp3
            · rw [hp3] at hk
              exact ((mem_keysOf_delEntry _ _ _).mp hk).1
            · rw [hp3] at hk; exact hk
          refine ⟨?_, ?_, ?_, ?_, ?_, ?_, ?_, ?_, ?_⟩
          · rw [hw3]; exact h.ndW
          · rcases hp3 with hp3 | hp3
            · rw [hp3]; exact nodup_keysOf_delEntry _ _ h.ndP
            · rw [hp3]; exact h.ndP
          · intro k hk hk2
            rw [hw3] at hk
            exact h.disj k hk (hsub k hk2)
          · intro k hk
            rw [hn3]
            rcases hk with hk | hk
            · rw [hw3] at hk; exact h.bound k (Or.inl hk)
            · exact h.bound k (Or.inr (hsub k hk))
          · intro hx; rw [hs3, hst] at hx; cases hx
          · intro hx; rw [hs3, hst] at hx; cases hx
          · rw [ht3, hs3, countP_append_of_false isStart _
              (Task.delCb { j with done := true } delRes) rfl, hcs]
            exact h.startCnt
          · rw [hlk3, hd3]
            exact hndE
          · intro k hk
            rw [hlk3, hd3] at hk
            have hk2 : k ∈ keysOf s.pending := hweak k hk
            have hkne : k ≠ j.key := by
              intro he
              rw [he] at hk
              exact hknot hk
            rcases hp3 with hp3 | hp3
            · rw [hp3]
              exact (mem_keysOf_delEntry _ _ _).mpr ⟨hk2, hkne⟩
            · rw [hp3]; exact hk2
        cases delRes with
        | none => apply base <;> first | exact Or.inl rfl | rfl
        | some e => apply base <;> first | exact Or.inr rfl | rfl
    | some e =>
      simp only [backoffCall]
      by_cases hmr : n = o.maxRetries
      · rw [if_pos hmr]
        refine ⟨h.ndW, h.ndP, h.disj, h.bound, ?_, ?_, ?_, ?_, ?_⟩
        · intro hx; rw [hst] at hx; cases hx
        · intro hx; rw [hst] at hx; cases hx
        · show (s.tasks.erase (Task.workerRetry j n)).countP isStart =
            (if s.starting then 1 else 0)
          rw [hcs]; exact h.startCnt
        · show (liveKeys (s.tasks.erase (Task.workerRetry j n)) ++ (s.dead ++ [j.key])).Nodup
          rw [← List.append_assoc]
          refine ((List.perm_append_singleton j.key _).nodup_iff).mpr ?_
          exact List.nodup_cons.mpr ⟨hknot, hndE⟩
        · intro k hk
          show k ∈ keysOf s.pending
          rcases List.mem_append.mp hk with hk1 | hk1
          · exact hweak k (List.mem_append.mpr (Or.inl hk1))
          · rcases List.mem_append.mp hk1 with hk2 | hk2
            · exact hweak k (List.mem_append.mpr (Or.inr hk2))
            · rw [List.mem_singleton.mp hk2]
              exact hmemJ
      · rw [if_neg hmr]
        have hp2 : List.Perm
            ((liveKeys (s.tasks.erase (Task.workerRetry j n)) ++ [j.key]) ++ s.dead)
            ((j.key :: liveKeys (s.tasks.erase (Task.workerRetry j n))) ++ s.dead) :=
          (List.perm_append_singleton j.key _).append_right s.dead
        refine ⟨h.ndW, h.ndP, h.disj, h.bound, ?_, ?_, ?_, ?_, ?_⟩
        · intro hx; rw [hst] at hx; cases hx
        · intro hx; rw [hst] at hx; cases hx
        · show (s.tasks.erase (Task.workerRetry j n) ++ [Task.backoffTimer j n]).countP isStart =
            (if s.starting then 1 else 0)
          rw [countP_append_of_false isStart _ (Task.backoffTimer j n) rfl, hcs]
          exact h.startCnt
        · show (liveKeys (s.tasks.erase (Task.workerRetry j n) ++ [Task.backoffTimer j n]) ++
            s.dead).Nodup
          rw [liveKeys_append_some _ (Task.backoffTimer j n) j.key rfl]
          exact hp2.nodup_iff.mpr (hperS.nodup_iff.mp h.liveDead)
        · intro k hk
          show k ∈ keysOf s.pending
          rw [liveKeys_append_some _ (Task.backoffTimer j n) j.key rfl] at hk
          exact h.livePend k (hperS.mem_iff.mpr (hp2.mem_iff.mp hk))
  | delCb j r =>
    have hst : s.starting = false := by
      cases hq : s.starting
      · rfl
      · exact absurd (h.startTasks hq _ hmem) Bool.false_ne_true
    have i1 := KeyInv_erase h hmem rfl rfl
    simp only [doTask, deletedPending]
    by_cases hpe : j.pokeErr.isSome
    · rw [if_pos hpe]
      cases r with
      | some e => exact KeyInv_flush (KeyInv_emitEv i1 _) hst
      | none => exact KeyInv_flush i1 hst
    · rw [if_neg hpe]
      exact KeyInv_flush i1 hst

theorem KeyInv_step {o : Opts} {s : QState} (h : KeyInv s) (a : Act) :
    KeyInv (step o s a) := by
  cases a with
  | push v hasCb res => exact KeyInv_pushStep h v hasCb res
  | deliver t res delRes =>
    simp only [step]
    by_cases hmem : t ∈ s.tasks
    · rw [if_pos hmem]
      exact KeyInv_doTask hmem h res delRes
    · rw [if_neg hmem]
      exact h

theorem KeyInv_exec {o : Opts} {s : QState} (h : KeyInv s)
    (acts : List Act) : KeyInv (exec o s acts) := by
  induction acts generalizing s with
  | nil => exact h
  | cons a rest ih => exact ih (KeyInv_step h a)

theorem KeyInv_init (work0 : Part) (k0 : Key) (hg : GoodPart work0 k0) :
    KeyInv (initState work0 [] k0) := by
  refine ⟨hg.1, List.nodup_nil, ?_, ?_, ?_, ?_, rfl, List.nodup_nil, ?_⟩
  · intro k hk hk2
    cases hk2
  · intro k hk
    rcases hk with hk | hk
    · exact hg.2 k hk
    · cases hk
  · intro _; rfl
  · intro _ t ht
    rw [List.mem_singleton.mp ht]
    rfl
  · intro k hk
    cases hk


/-! ### Projection helpers for `flush`/`maybeFlush` -/

theorem flush_work (o : Opts) (s : QState) : (flush o s).work = s.work := by
  rw [flush]; split <;> rfl

theorem flush_pending (o : Opts) (s : QState) : (flush o s).pending = s.pending := by
  rw [flush]; split <;> rfl

theorem flush_starting (o : Opts) (s : QState) : (flush o s).starting = s.starting := by
  rw [flush]; split <;> rfl

theorem maybeFlush_work (o : Opts) (s : QState) : (maybeFlush o s).work = s.work := by
  rw [maybeFlush]
  split
  · exact flush_work o s
  · rfl

theorem maybeFlush_pending (o : Opts) (s : QState) :
    (maybeFlush o s).pending = s.pending := by
  rw [maybeFlush]
  split
  · exact flush_pending o s
  · rfl

theorem maybeFlush_starting (o : Opts) (s : QState) :
    (maybeFlush o s).starting = s.starting := by
  rw [maybeFlush]
  split
  · exact flush_starting o s
  · rfl

theorem startStep_work (o : Opts) (s : QState) :
    (startStep o s).work = copyAll s.pending s.work := by
  rw [startStep, maybeFlush_work]

theorem startStep_pending (o : Opts) (s : QState) :
    (startStep o s).pending = s.pending := by
  rw [startStep, maybeFlush_pending]

theorem startStep_starting (o : Opts) (s : QState) :
    (startStep o s).starting = false := by
  rw [startStep, maybeFlush_starting]

theorem maybeFlush_run (o : Opts) (s : QState) (h1 : s.starting = false)
    (h2 : s.flushing = false) : maybeFlush o s = flush o s := by
  simp [maybeFlush, h1, h2]

theorem maybeFlush_defer (o : Opts) (s : QState) (h1 : s.starting = true) :
    maybeFlush o s = { s with needsFlush := true } := by
  simp [maybeFlush, h1]

theorem flush_go (o : Opts) (s : QState)
    (h : underMax s.concurrency o.maxConcurrency = true)
    (hp : s.peeking = false) :
    flush o s = { s with
      peeking := true
      flushing := true
      tasks := s.tasks ++ [Task.peekT] } := by
  simp [flush, h, hp]

theorem exec_cons (o : Opts) (s : QState) (a : Act) (acts : List Act) :
    exec o s (a :: acts) = exec o (step o s a) acts := rfl

theorem exec_singleton (o : Opts) (s : QState) (a : Act) :
    exec o s [a] = step o s a := rfl

theorem step_deliver_singleton (o : Opts) (s : QState) (t : Task)
    (r ri : Option Err) (h : s.tasks = [t]) :
    step o s (Act.deliver t r ri) = doTask o { s with tasks := [] } t r ri := by
  simp only [step]
  rw [h, if_pos (List.mem_singleton_self t), List.erase_cons_head]

theorem exec_no_tasks (o : Opts) (s : QState) (hts : s.tasks = [])
    (acts : List Act) (hnp : ∀ a ∈ acts, ∀ v c r, a ≠ Act.push v c r) :
    exec o s acts = s := by
  induction acts with
  | nil => rfl
  | cons a rest ih =>
    have hstep : step o s a = s := by
      cases a with
      | push v c r => exact absurd rfl (hnp _ (List.mem_cons_self _ _) v c r)
      | deliver t r ri =>
        simp only [step]
        rw [if_neg]
        rw [hts]
        exact List.not_mem_nil t
    show exec o (step o s a) rest = s
    rw [hstep]
    exact ih (fun a2 ha2 => hnp a2 (List.mem_cons_of_mem a ha2))

/-! ### Claims -/

/-- Claim C9 (confirmed): a numeric `options` argument `n` to the queue
constructor is interpreted as `{ maxConcurrency: n }`, and every other
recognized option (`maxRetries`, `backoff.initialDelay`,
`backoff.maxDelay`, `backoff.randomisationFactor`) takes its default
value (10, 10, 300 and 0 respectively). -/
theorem claim_C9_numeric_options (n : Nat) :
    resolveOptions (OptionsArg.num n) =
      { maxConcurrency := some n
        maxRetries := defaultOptions.maxRetries
        backoff := defaultOptions.backoff } ∧
    resolveOptions (OptionsArg.num n) =
      { maxConcurrency := some n
        maxRetries := 10
        backoff := { randomisationFactor := 0, initialDelay := 10, maxDelay := 300 } } :=
  ⟨rfl, rfl⟩

/-- Claim C7 (confirmed): when the durable `put` of a `push` completes,
on success the callback (if provided) is invoked with no error; on
failure the callback is invoked with the error or, when no callback was
given, the error is emitted on the queue's error channel; and in every
one of these four cases exactly one dispatch attempt is requested
afterwards (the continuation is exactly `maybeFlush`).  Moreover `push`
itself sets `needsDrain` and issues the write under a fresh key. -/
theorem claim_C7_push_callback (o : Opts) (s : QState) (k : Key) (e : Err)
    (x y : Option Err) (v : Payload) (hasCb : Bool) (r : Option Err) :
    doTask o s (Task.pushCb k true none) x y = maybeFlush o (emitEv s Ev.cbOk) ∧
    doTask o s (Task.pushCb k true (some e)) x y =
      maybeFlush o (emitEv s (Ev.cbErr e)) ∧
    doTask o s (Task.pushCb k false (some e)) x y =
      maybeFlush o (emitEv s (Ev.error e)) ∧
    doTask o s (Task.pushCb k false none) x y = maybeFlush o s ∧
    (pushStep s v hasCb r).needsDrain = true ∧
    (pushStep s v hasCb r).tasks = s.tasks ++ [Task.pushCb s.nextKey hasCb r] ∧
    (pushStep s v hasCb none).work = putEntry s.nextKey v s.work := by
  refine ⟨rfl, rfl, rfl, rfl, ?_, ?_, rfl⟩
  · cases r <;> rfl
  · cases r <;> rfl

/-- Claim C3 (code bug): after a successful worker run, `deletedPending`
tests the enclosing `poke` callback's `err` — which is always absent
when a key was dispatched (the engine only ever creates a deletion
callback with `pokeErr = none`) — instead of its own `_err`.  A failing
deletion therefore emits nothing, and only the unconditional `flush(q)`
happens; the claim's second half (another dispatch attempt is triggered
regardless of the deletion outcome) does hold.  Concretely: one job,
worker succeeds, deletion fails with `io 7` — the trace contains no
error event, the orphaned entry stays in "pending", and a new peek is
outstanding. -/
theorem claim_C3_deletion_error_swallowed :
    (∀ (o : Opts) (s : QState) (k : Key) (w : Payload) (d : Bool) (r : Option Err),
      deletedPending o s { key := k, work := w, done := d, pokeErr := none } r =
        flush o s) ∧
    (exec { maxConcurrency := some 1, maxRetries := 10 } (initState [(1, "a")] [] 2)
      [Act.deliver Task.startDone none none,
       Act.deliver Task.peekT none none,
       Act.deliver (Task.transferCb { key := 1, work := "a", done := false, pokeErr := none } none) none none,
       Act.deliver (Task.workerFirst { key := 1, work := "a", done := false, pokeErr := none }) none (some (Err.io 7)),
       Act.deliver (Task.delCb { key := 1, work := "a", done := true, pokeErr := none } (some (Err.io 7))) none none]).trace =
      [Ev.runJob 1] ∧
    (exec { maxConcurrency := some 1, maxRetries := 10 } (initState [(1, "a")] [] 2)
      [Act.deliver Task.startDone none none,
       Act.deliver Task.peekT none none,
       Act.deliver (Task.transferCb { key := 1, work := "a", done := false, pokeErr := none } none) none none,
       Act.deliver (Task.workerFirst { key := 1, work := "a", done := false, pokeErr := none }) none (some (Err.io 7)),
       Act.deliver (Task.delCb { key := 1, work := "a", done := true, pokeErr := none } (some (Err.io 7))) none none]).pending =
      [(1, "a")] ∧
    (exec { maxConcurrency := some 1, maxRetries := 10 } (initState [(1, "a")] [] 2)
      [Act.deliver Task.startDone none none,
       Act.deliver Task.peekT none none,
       Act.deliver (Task.transferCb { key := 1, work := "a", done := false, pokeErr := none } none) none none,
       Act.deliver (Task.workerFirst { key := 1, work := "a", done := false, pokeErr := none }) none (some (Err.io 7)),
       Act.deliver (Task.delCb { key := 1, work := "a", done := true, pokeErr := none } (some (Err.io 7))) none none]).tasks =
      [Task.peekT] := by
  refine ⟨?_, ?_, ?_, ?_⟩
  · intro o s k w d r
    rfl
  · decide
  · decide
  · decide

/-- Claim C5 (confirmed): for every sequence of pushes, dispatches,
worker completions and worker failures from any initial store contents,
the concurrency counter satisfies `0 ≤ concurrency ≤ maxConcurrency` at
every reachable instant. -/
theorem claim_C5_concurrency_bounds (o : Opts) (work0 pending0 : Part)
    (k0 : Key) (s : QState)
    (hr : Reachable o (initState work0 pending0 k0) s) :
    0 ≤ s.concurrency ∧ leMax s.concurrency o.maxConcurrency := by
  rcases hr with ⟨acts, rfl⟩
  have hc := ConcInv_exec (ConcInv_init o work0 pending0 k0) acts
  refine ⟨?_, hc.concLe⟩
  have hge := hc.concGe
  omega

/-- Witness for C5 at a concrete input. -/
theorem claim_C5_witness :
    0 ≤ (initState [] [] 0).concurrency ∧
    leMax (initState [] [] 0).concurrency
      ({ maxConcurrency := some 2, maxRetries := 10 } : Opts).maxConcurrency :=
  claim_C5_concurrency_bounds { maxConcurrency := some 2, maxRetries := 10 }
    [] [] 0 (initState [] [] 0) ⟨[], rfl⟩

/-- Claim C1 counterexample: with a nonempty "pending" partition at
startup, the recovery stream copies the entry into "work" but does not
remove it from "pending" (the stream only reads), so right after
recovery the key 1 is present in both partitions simultaneously,
refuting the claimed exclusivity for sequences that include the startup
recovery procedure. -/
theorem claim_C1_cex :
    1 ∈ keysOf (exec { maxConcurrency := some 1, maxRetries := 1 }
      (initState [] [(1, "a")] 2) [Act.deliver Task.startDone none none]).work ∧
    1 ∈ keysOf (exec { maxConcurrency := some 1, maxRetries := 1 }
      (initState [] [(1, "a")] 2) [Act.deliver Task.startDone none none]).pending := by
  decide

/-- Claim C1 (amended): provided the "pending" partition is empty at
startup (the no-crash case), at every reachable instant a given job key
resides in at most one of the two partitions — never in both — for every
sequence of operations including the startup recovery procedure and
every work→pending dispatch transition (which is a single atomic batch
applied inside `poke`).  When "pending" is nonempty at startup, recovery
copies its entries into "work" while leaving them in "pending", so a
recovered key is in both partitions until its re-dispatch overwrites and
its completion deletes the pending entry. -/
theorem claim_C1_partition_exclusivity (o : Opts) (work0 : Part) (k0 : Key)
    (s : QState) (hg : GoodPart work0 k0)
    (hr : Reachable o (initState work0 [] k0) s) :
    ∀ k, ¬ (k ∈ keysOf s.work ∧ k ∈ keysOf s.pending) := by
  rcases hr with ⟨acts, rfl⟩
  have hk := @KeyInv_exec o (initState work0 [] k0) (KeyInv_init work0 k0 hg) acts
  rintro k ⟨h1, h2⟩
  exact hk.disj k h1 h2

/-- Witness for the amended C1 at a concrete input. -/
theorem claim_C1_witness :
    GoodPart [(0, "x")] 1 ∧
    ¬ (0 ∈ keysOf (initState [(0, "x")] [] 1).work ∧
       0 ∈ keysOf (initState [(0, "x")] [] 1).pending) :=
  ⟨by show (keysOf [(0, "x")]).Nodup ∧ ∀ k ∈ keysOf [(0, "x")], k < 1
      decide,
    claim_C1_partition_exclusivity { maxConcurrency := none, maxRetries := 10 }
      [(0, "x")] 1 (initState [(0, "x")] [] 1)
      (by show (keysOf [(0, "x")]).Nodup ∧ ∀ k ∈ keysOf [(0, "x")], k < 1
          decide)
      ⟨[], rfl⟩ 0⟩

/-- Claim C8 (confirmed): a job whose retry sequence emitted the
terminal "max retries reached" failure is never cleaned up — the
terminal step itself only emits the error and records the job as dead,
leaving concurrency, the partitions, `needsDrain` and the other
outstanding tasks untouched; and at every reachable state each dead
job's entry is still in "pending" and the concurrency counter remains at
least the number of dead jobs, so each exhausted job permanently
consumes one capacity slot. -/
theorem claim_C8_dead_slots (o : Opts) (work0 : Part) (k0 : Key)
    (s : QState) (hg : GoodPart work0 k0)
    (hr : Reachable o (initState work0 [] k0) s) :
    (∀ k ∈ s.dead, k ∈ keysOf s.pending) ∧
    (s.dead.length : Int) ≤ s.concurrency ∧
    (∀ (s2 : QState) (j : JobCtx) (e : Err) (dr : Option Err),
      doTask o s2 (Task.workerRetry j o.maxRetries) (some e) dr =
        { s2 with
          trace := s2.trace ++ [Ev.error Err.maxRetriesReached]
          dead := s2.dead ++ [j.key] }) := by
  rcases hr with ⟨acts, rfl⟩
  have hk := @KeyInv_exec o (initState work0 [] k0) (KeyInv_init work0 k0 hg) acts
  have hc := ConcInv_exec (ConcInv_init o work0 [] k0) acts
  refine ⟨?_, ?_, ?_⟩
  · intro k hkd
    exact hk.livePend k (List.mem_append.mpr (Or.inr hkd))
  · have hge := hc.concGe
    omega
  · intro s2 j e dr
    simp only [doTask, ranAgainCb, backoffCall]
    rw [if_pos trivial]
    rfl

/-- Witness for C8 at a concrete input. -/
theorem claim_C8_witness :
    (∀ k ∈ (initState [] [] 0).dead, k ∈ keysOf (initState [] [] 0).pending) ∧
    ((initState [] [] 0).dead.length : Int) ≤ (initState [] [] 0).concurrency ∧
    (∀ (s2 : QState) (j : JobCtx) (e : Err) (dr : Option Err),
      doTask ({ maxConcurrency := none, maxRetries := 3 } : Opts) s2
          (Task.workerRetry j ({ maxConcurrency := none, maxRetries := 3 } : Opts).maxRetries)
          (some e) dr =
        { s2 with
          trace := s2.trace ++ [Ev.error Err.maxRetriesReached]
          dead := s2.dead ++ [j.key] }) :=
  claim_C8_dead_slots { maxConcurrency := none, maxRetries := 3 } [] 0
    (initState [] [] 0) ⟨List.nodup_nil, by intro k hk; cases hk⟩ ⟨[], rfl⟩


/-- Claim C2 counterexample: the recovery stream is
`q._pending.createReadStream().pipe(q._work.createWriteStream())` — a
copy, not a move.  With `pending = [(1, "a")]` at startup, after the
stream's `close` fires recovery is complete (`starting = false`) yet
the copied entry has not been removed from "pending". -/
theorem claim_C2_cex :
    (exec { maxConcurrency := some 1, maxRetries := 1 } (initState [] [(1, "a")] 2)
      [Act.deliver Task.startDone none none]).starting = false ∧
    (exec { maxConcurrency := some 1, maxRetries := 1 } (initState [] [(1, "a")] 2)
      [Act.deliver Task.startDone none none]).pending = [(1, "a")] := by
  decide

/-- Claim C2 (amended): on startup every entry of the "pending"
partition is copied into the "work" partition preserving key and
payload, but the copied entries are NOT removed from "pending" (the
recovery stream only reads); no dispatch attempt executes until the
recovery completes — while `starting` is true any dispatch request is
only recorded in `needsFlush` — and when the stream's `close` fires,
`starting` is cleared and a dispatch attempt is triggered through
`maybeFlush` (a direct `flush` whenever no flush cycle was already
active). -/
theorem claim_C2_recovery (o : Opts) :
    (∀ (s : QState) (k : Key) (v : Payload),
      (keysOf s.pending).Nodup → (k, v) ∈ s.pending →
      lookupP k (startStep o s).work = some v) ∧
    (∀ s : QState, (startStep o s).pending = s.pending) ∧
    (∀ s : QState, (startStep o s).starting = false) ∧
    (∀ s : QState, s.starting = true →
      maybeFlush o s = { s with needsFlush := true }) ∧
    (∀ s : QState, s.flushing = false →
      startStep o s =
        flush o { s with work := copyAll s.pending s.work, starting := false }) := by
  refine ⟨?_, ?_, ?_, ?_, ?_⟩
  · intro s k v hnd hmem
    rw [startStep_work]
    exact lookupP_copyAll_mem _ _ _ _ hnd hmem
  · intro s
    exact startStep_pending o s
  · intro s
    exact startStep_starting o s
  · intro s h1
    exact maybeFlush_defer o s h1
  · intro s hf
    rw [startStep]
    exact maybeFlush_run o _ rfl hf

/-- Witness for the amended C2 at a concrete input. -/
theorem claim_C2_witness :
    lookupP 1 (startStep { maxConcurrency := some 1, maxRetries := 1 }
      (initState [] [(1, "a")] 2)).work = some "a" ∧
    maybeFlush { maxConcurrency := some 1, maxRetries := 1 }
      (initState [] [(1, "a")] 2) =
      { initState [] [(1, "a")] 2 with needsFlush := true } ∧
    startStep { maxConcurrency := some 1, maxRetries := 1 }
      (initState [] [(1, "a")] 2) =
      flush { maxConcurrency := some 1, maxRetries := 1 }
        { initState [] [(1, "a")] 2 with
          work := copyAll (initState [] [(1, "a")] 2).pending
            (initState [] [(1, "a")] 2).work
          starting := false } :=
  ⟨(claim_C2_recovery { maxConcurrency := some 1, maxRetries := 1 }).1
      (initState [] [(1, "a")] 2) 1 "a" (by decide) (by decide),
    (claim_C2_recovery { maxConcurrency := some 1, maxRetries := 1 }).2.2.2.1
      (initState [] [(1, "a")] 2) rfl,
    (claim_C2_recovery { maxConcurrency := some 1, maxRetries := 1 }).2.2.2.2
      (initState [] [(1, "a")] 2) rfl⟩

/-- Claim C10 (confirmed): a freshly constructed queue over a store
whose "pending" (and "work") partitions are empty, with no push ever
performed, emits exactly one `drain` notification once the recovery
procedure completes and the first (empty) peek returns — because
`needsDrain` is initialized to `true` rather than being set only when
new work is introduced.  Afterwards no outstanding work remains, and no
further events can ever be emitted by schedules that contain no push
(the capacity hypothesis `underMax 0 maxConcurrency` holds for the
default `Infinity` and for every positive bound). -/
theorem claim_C10_initial_drain (o : Opts) (k0 : Key)
    (hcap : underMax 0 o.maxConcurrency = true) :
    (exec o (initState [] [] k0)
      [Act.deliver Task.startDone none none,
       Act.deliver Task.peekT none none]).trace = [Ev.drain] ∧
    (exec o (initState [] [] k0)
      [Act.deliver Task.startDone none none,
       Act.deliver Task.peekT none none]).tasks = [] ∧
    (∀ acts : List Act, (∀ a ∈ acts, ∀ v c r, a ≠ Act.push v c r) →
      exec o (exec o (initState [] [] k0)
        [Act.deliver Task.startDone none none,
         Act.deliver Task.peekT none none]) acts =
      exec o (initState [] [] k0)
        [Act.deliver Task.startDone none none,
         Act.deliver Task.peekT none none]) := by
  have h1 : step o (initState [] [] k0) (Act.deliver Task.startDone none none) =
      { initState [] [] k0 with
        starting := false
        peeking := true
        flushing := true
        tasks := [Task.peekT] } := by
    rw [step_deliver_singleton o _ _ _ _ rfl]
    show startStep o { initState [] [] k0 with tasks := [] } = _
    rw [startStep]
    rw [maybeFlush_run o _ rfl rfl]
    rw [flush_go o _ hcap rfl]
    rfl
  have h2 : exec o (initState [] [] k0)
      [Act.deliver Task.startDone none none, Act.deliver Task.peekT none none] =
      { initState [] [] k0 with
        starting := false
        needsDrain := false
        tasks := []
        trace := [Ev.drain] } := by
    rw [exec_cons, h1, exec_singleton, step_deliver_singleton o _ _ _ _ rfl]
    rfl
  rw [h2]
  refine ⟨rfl, rfl, ?_⟩
  intro acts hnp
  exact exec_no_tasks o _ rfl acts hnp

/-- Witness for C10 at a concrete input. -/
theorem claim_C10_witness :
    underMax 0 ({ maxConcurrency := none, maxRetries := 10 } : Opts).maxConcurrency = true ∧
    (exec { maxConcurrency := none, maxRetries := 10 } (initState [] [] 0)
      [Act.deliver Task.startDone none none,
       Act.deliver Task.peekT none none]).trace = [Ev.drain] :=
  ⟨rfl, (claim_C10_initial_drain { maxConcurrency := none, maxRetries := 10 } 0 rfl).1⟩


/-- The happy-path schedule for three queued jobs under
`maxConcurrency = 1`: recovery, then for each job a peek, the
work→pending move, a successful worker run and the pending deletion,
and a final empty peek that emits `drain`. -/
def fifoScenario : List Act :=
  [ Act.deliver Task.startDone none none
  , Act.deliver Task.peekT none none
  , Act.deliver (Task.transferCb { key := 1, work := "p1", done := false, pokeErr := none } none) none none
  , Act.deliver (Task.workerFirst { key := 1, work := "p1", done := false, pokeErr := none }) none none
  , Act.deliver (Task.delCb { key := 1, work := "p1", done := true, pokeErr := none } none) none none
  , Act.deliver Task.peekT none none
  , Act.deliver (Task.transferCb { key := 2, work := "p2", done := false, pokeErr := none } none) none none
  , Act.deliver (Task.workerFirst { key := 2, work := "p2", done := false, pokeErr := none }) none none
  , Act.deliver (Task.delCb { key := 2, work := "p2", done := true, pokeErr := none } none) none none
  , Act.deliver Task.peekT none none
  , Act.deliver (Task.transferCb { key := 3, work := "p3", done := false, pokeErr := none } none) none none
  , Act.deliver (Task.workerFirst { key := 3, work := "p3", done := false, pokeErr := none }) none none
  , Act.deliver (Task.delCb { key := 3, work := "p3", done := true, pokeErr := none } none) none none
  , Act.deliver Task.peekT none none ]

/-- Claim C6 (confirmed): every dispatch attempt selects the single
smallest-key entry remaining in the "work" partition (the `poke`
callback dispatches exactly the entry delivered by `peek`, which is the
minimum); consequently, for jobs enqueued with keys 1 < 2 < 3 and
`maxConcurrency = 1`, the workers are invoked in the order 1, 2, 3
(followed by the final `drain`). -/
theorem claim_C6_fifo_dispatch :
    (∀ (o : Opts) (s : QState) (e : Key × Payload) (res : Option Err),
      peekMin s.work = some e →
      (∀ x ∈ s.work, e.1 ≤ x.1) ∧
      (poke o s res).tasks = s.tasks ++
        [Task.transferCb { key := e.1, work := e.2, done := false, pokeErr := none } res]) ∧
    dispatches (exec { maxConcurrency := some 1, maxRetries := 10 }
      (initState [(1, "p1"), (2, "p2"), (3, "p3")] [] 4) fifoScenario).trace =
      [1, 2, 3] ∧
    (exec { maxConcurrency := some 1, maxRetries := 10 }
      (initState [(1, "p1"), (2, "p2"), (3, "p3")] [] 4) fifoScenario).trace =
      [Ev.runJob 1, Ev.runJob 2, Ev.runJob 3, Ev.drain] := by
  refine ⟨?_, ?_, ?_⟩
  · intro o s e res hpm
    refine ⟨peekMin_le _ _ hpm, ?_⟩
    simp only [poke]
    rw [hpm]
    cases res <;> rfl
  · decide
  · decide

/-- Witness for C6 at a concrete input. -/
theorem claim_C6_witness :
    (∀ x ∈ (initState [(5, "x")] [] 6).work, (5 : Key) ≤ x.1) ∧
    (poke { maxConcurrency := none, maxRetries := 10 }
      (initState [(5, "x")] [] 6) none).tasks =
      (initState [(5, "x")] [] 6).tasks ++
        [Task.transferCb { key := 5, work := "x", done := false, pokeErr := none } none] :=
  claim_C6_fifo_dispatch.1 { maxConcurrency := none, maxRetries := 10 }
    (initState [(5, "x")] [] 6) (5, "x") none rfl


/-! ### Retry-episode schedules (claim C4) -/

theorem exec_append (o : Opts) (s : QState) (l1 l2 : List Act) :
    exec o s (l1 ++ l2) = exec o (exec o s l1) l2 :=
  List.foldl_append _ _ _ _

/-- `c` backoff rounds starting at backoff number `i`: each round fires
the scheduled timer (re-invoking the worker) and the retry fails. -/
def retryFailPairs (j : JobCtx) (e : Err) : Nat → Nat → List Act
  | _, 0 => []
  | i, c + 1 =>
    Act.deliver (Task.backoffTimer j i) none none ::
    Act.deliver (Task.workerRetry j (i + 1)) (some e) none ::
    retryFailPairs j e (i + 1) c

/-- A worker failing on every invocation: the initial failure followed
by `m` failed retries. -/
def alwaysFailActs (j : JobCtx) (e : Err) (m : Nat) : List Act :=
  Act.deliver (Task.workerFirst j) (some e) none :: retryFailPairs j e 0 m

/-- A worker failing its first `f` invocations and succeeding on
invocation `f + 1` (with the subsequent pending deletion issued
successfully). -/
def failThenSucceedActs (j : JobCtx) (e : Err) : Nat → List Act
  | 0 => [Act.deliver (Task.workerFirst j) none none]
  | f + 1 =>
    Act.deliver (Task.workerFirst j) (some e) none ::
    (retryFailPairs j e 0 f ++
      [Act.deliver (Task.backoffTimer j f) none none,
       Act.deliver (Task.workerRetry j (f + 1)) none none])

theorem step_timer (o : Opts) (s : QState) (j : JobCtx) (i : Nat)
    (hts : s.tasks = [Task.backoffTimer j i]) :
    step o s (Act.deliver (Task.backoffTimer j i) none none) =
      { s with
        tasks := [Task.workerRetry j (i + 1)]
        trace := s.trace ++ [Ev.runJob j.key] } := by
  rw [step_deliver_singleton o s _ _ _ hts]
  rfl

theorem step_retry_fail_alive (o : Opts) (s : QState) (j : JobCtx)
    (n : Nat) (e : Err) (hne : ¬ (n = o.maxRetries))
    (hts : s.tasks = [Task.workerRetry j n]) :
    step o s (Act.deliver (Task.workerRetry j n) (some e) none) =
      { s with tasks := [Task.backoffTimer j n] } := by
  rw [step_deliver_singleton o s _ _ _ hts]
  simp only [doTask, ranAgainCb, backoffCall]
  rw [if_neg hne]
  rfl

theorem step_retry_fail_term (o : Opts) (s : QState) (j : JobCtx)
    (n : Nat) (e : Err) (hn : n = o.maxRetries)
    (hts : s.tasks = [Task.workerRetry j n]) :
    step o s (Act.deliver (Task.workerRetry j n) (some e) none) =
      { s with
        tasks := []
        trace := s.trace ++ [Ev.error Err.maxRetriesReached]
        dead := s.dead ++ [j.key] } := by
  rw [step_deliver_singleton o s _ _ _ hts]
  simp only [doTask, ranAgainCb, backoffCall]
  rw [if_pos hn]
  rfl

theorem step_first_fail (o : Opts) (s : QState) (j : JobCtx) (e : Err)
    (hne : ¬ ((0 : Nat) = o.maxRetries))
    (hts : s.tasks = [Task.workerFirst j]) :
    step o s (Act.deliver (Task.workerFirst j) (some e) none) =
      { s with tasks := [Task.backoffTimer j 0] } := by
  rw [step_deliver_singleton o s _ _ _ hts]
  simp only [doTask, ranCb, backoffCall]
  rw [if_neg hne]
  rfl

theorem step_first_fail_term (o : Opts) (s : QState) (j : JobCtx) (e : Err)
    (h0 : (0 : Nat) = o.maxRetries)
    (hts : s.tasks = [Task.workerFirst j]) :
    step o s (Act.deliver (Task.workerFirst j) (some e) none) =
      { s with
        tasks := []
        trace := s.trace ++ [Ev.error Err.maxRetriesReached]
        dead := s.dead ++ [j.key] } := by
  rw [step_deliver_singleton o s _ _ _ hts]
  simp only [doTask, ranCb, backoffCall]
  rw [if_pos h0]
  rfl

theorem step_first_success (o : Opts) (s : QState) (j : JobCtx)
    (hjd : j.done = false) (hts : s.tasks = [Task.workerFirst j]) :
    step o s (Act.deliver (Task.workerFirst j) none none) =
      { s with
        tasks := [Task.delCb { j with done := true } none]
        needsDrain := true
        concurrency := s.concurrency - 1
        pending := delEntry j.key s.pending } := by
  rw [step_deliver_singleton o s _ _ _ hts]
  simp only [doTask, ranCb, ranOk, hjd]
  rw [if_neg Bool.false_ne_true]
  rfl

theorem step_retry_success (o : Opts) (s : QState) (j : JobCtx) (n : Nat)
    (hjd : j.done = false) (hts : s.tasks = [Task.workerRetry j n]) :
    step o s (Act.deliver (Task.workerRetry j n) none none) =
      { s with
        tasks := [Task.delCb { j with done := true } none]
        needsDrain := true
        concurrency := s.concurrency - 1
        pending := delEntry j.key s.pending } := by
  rw [step_deliver_singleton o s _ _ _ hts]
  simp only [doTask, ranAgainCb, ranOk, hjd]
  rw [if_neg Bool.false_ne_true]
  rfl

theorem exec_pairs_alive (o : Opts) (j : JobCtx) (e : Err) :
    ∀ (c i : Nat), i + c < o.maxRetries →
    ∀ s : QState, s.tasks = [Task.backoffTimer j i] →
    exec o s (retryFailPairs j e i c) =
      { s with
        tasks := [Task.backoffTimer j (i + c)]
        trace := s.trace ++ List.replicate c (Ev.runJob j.key) } := by
  intro c
  induction c with
  | zero =>
    intro i hlt s hts
    show s = { s with
      tasks := [Task.backoffTimer j i]
      trace := s.trace ++ [] }
    rw [List.append_nil, ← hts]
  | succ c ih =>
    intro i hlt s hts
    show exec o s (Act.deliver (Task.backoffTimer j i) none none ::
      Act.deliver (Task.workerRetry j (i + 1)) (some e) none ::
      retryFailPairs j e (i + 1) c) = _
    rw [exec_cons, step_timer o s j i hts]
    rw [exec_cons, step_retry_fail_alive o _ j (i + 1) e (by omega) rfl]
    rw [ih (i + 1) (by omega) _ rfl]
    rw [show i + 1 + c = i + (c + 1) from by omega]
    rw [show s.trace ++ [Ev.runJob j.key] ++ List.replicate c (Ev.runJob j.key) =
      s.trace ++ ([Ev.runJob j.key] ++ List.replicate c (Ev.runJob j.key)) from
        List.append_assoc _ _ _]
    rfl

theorem exec_pairs_terminal (o : Opts) (j : JobCtx) (e : Err) :
    ∀ (c i : Nat), 1 ≤ c → i + c = o.maxRetries →
    ∀ s : QState, s.tasks = [Task.backoffTimer j i] →
    exec o s (retryFailPairs j e i c) =
      { s with
        tasks := []
        trace := s.trace ++ List.replicate c (Ev.runJob j.key) ++
          [Ev.error Err.maxRetriesReached]
        dead := s.dead ++ [j.key] } := by
  intro c
  induction c with
  | zero =>
    intro i h1
    cases h1
  | succ c ih =>
    intro i h1 heq s hts
    show exec o s (Act.deliver (Task.backoffTimer j i) none none ::
      Act.deliver (Task.workerRetry j (i + 1)) (some e) none ::
      retryFailPairs j e (i + 1) c) = _
    rw [exec_cons, step_timer o s j i hts]
    cases c with
    | zero =>
      rw [exec_cons, step_retry_fail_term o _ j (i + 1) e (by omega) rfl]
      rfl
    | succ c2 =>
      rw [exec_cons, step_retry_fail_alive o _ j (i + 1) e (by omega) rfl]
      rw [ih (i + 1) (by omega) (by omega) _ rfl]
      rw [show s.trace ++ [Ev.runJob j.key] ++ List.replicate (c2 + 1) (Ev.runJob j.key) =
        s.trace ++ ([Ev.runJob j.key] ++ List.replicate (c2 + 1) (Ev.runJob j.key)) from
          List.append_assoc _ _ _]
      rfl


/-- Claim C4 counterexample: with `maxRetries = 1`, after the worker has
failed `maxRetries` times in a row (the single initial invocation), no
terminal "max retries reached" error has been emitted and the retry
loop has not stopped — a further retry is scheduled (the backoff
sequence with `failAfter(maxRetries)` only emits `fail` on its
`maxRetries + 1`-st `backoff()` call, and `handleRunError` calls
`backoff()` once per failure including the initial one). -/
theorem claim_C4_cex :
    traceErrors (exec { maxConcurrency := some 1, maxRetries := 1 }
      (initState [(1, "a")] [] 2)
      [Act.deliver Task.startDone none none,
       Act.deliver Task.peekT none none,
       Act.deliver (Task.transferCb { key := 1, work := "a", done := false, pokeErr := none } none) none none,
       Act.deliver (Task.workerFirst { key := 1, work := "a", done := false, pokeErr := none }) (some (Err.io 1)) none]).trace =
      [] ∧
    (exec { maxConcurrency := some 1, maxRetries := 1 }
      (initState [(1, "a")] [] 2)
      [Act.deliver Task.startDone none none,
       Act.deliver Task.peekT none none,
       Act.deliver (Task.transferCb { key := 1, work := "a", done := false, pokeErr := none } none) none none,
       Act.deliver (Task.workerFirst { key := 1, work := "a", done := false, pokeErr := none }) (some (Err.io 1)) none]).tasks =
      [Task.backoffTimer { key := 1, work := "a", done := false, pokeErr := none } 0] := by
  refine ⟨?_, ?_⟩ <;> decide

/-- Claim C4 (amended): for a dispatched job whose worker is invoked up
to `1 + maxRetries` times: if the worker fails its first `f ≤ maxRetries`
invocations and succeeds on invocation `f + 1`, exactly one success path
runs — the pending entry is deleted, the concurrency slot is released,
`needsDrain` is set — and no terminal-failure notification is emitted
(the trace gains only the retry `runJob` events); if the worker fails
`1 + maxRetries` invocations in a row (the initial one plus `maxRetries`
retries), exactly one terminal "max retries reached" error is emitted,
the retry loop stops, and the job's entry is left in "pending" (the
state's partitions are untouched and the job is recorded dead). -/
theorem claim_C4_retry_termination (o : Opts) (s : QState) (j : JobCtx)
    (e : Err) (hts : s.tasks = [Task.workerFirst j]) (hjd : j.done = false) :
    exec o s (alwaysFailActs j e o.maxRetries) =
      { s with
        tasks := []
        trace := s.trace ++ List.replicate o.maxRetries (Ev.runJob j.key) ++
          [Ev.error Err.maxRetriesReached]
        dead := s.dead ++ [j.key] } ∧
    (∀ f : Nat, f ≤ o.maxRetries →
      exec o s (failThenSucceedActs j e f) =
        { s with
          tasks := [Task.delCb { j with done := true } none]
          trace := s.trace ++ List.replicate f (Ev.runJob j.key)
          needsDrain := true
          concurrency := s.concurrency - 1
          pending := delEntry j.key s.pending }) := by
  constructor
  · cases hm : o.maxRetries with
    | zero =>
      show exec o s [Act.deliver (Task.workerFirst j) (some e) none] = _
      rw [exec_singleton, step_first_fail_term o s j e hm.symm hts]
      rw [show s.trace ++ List.replicate 0 (Ev.runJob j.key) = s.trace from List.append_nil _]
    | succ m =>
      show exec o s (Act.deliver (Task.workerFirst j) (some e) none ::
        retryFailPairs j e 0 (m + 1)) = _
      rw [exec_cons, step_first_fail o s j e (by omega) hts]
      rw [exec_pairs_terminal o j e (m + 1) 0 (by omega) (by omega) _ rfl]
  · intro f hf
    cases f with
    | zero =>
      show exec o s [Act.deliver (Task.workerFirst j) none none] = _
      rw [exec_singleton, step_first_success o s j hjd hts]
      rw [show s.trace ++ List.replicate 0 (Ev.runJob j.key) = s.trace from List.append_nil _]
    | succ f =>
      show exec o s (Act.deliver (Task.workerFirst j) (some e) none ::
        (retryFailPairs j e 0 f ++
          [Act.deliver (Task.backoffTimer j f) none none,
           Act.deliver (Task.workerRetry j (f + 1)) none none])) = _
      rw [exec_cons, step_first_fail o s j e (by omega) hts]
      rw [exec_append]
      rw [exec_pairs_alive o j e f 0 (by omega) _ rfl]
      rw [show (0 : Nat) + f = f from by omega]
      rw [exec_cons, step_timer o _ j f rfl]
      rw [exec_singleton, step_retry_success o _ j (f + 1) hjd rfl]
      rw [show s.trace ++ List.replicate f (Ev.runJob j.key) ++ [Ev.runJob j.key] =
        s.trace ++ List.replicate (f + 1) (Ev.runJob j.key) from by
          rw [List.append_assoc, ← List.replicate_succ' f (Ev.runJob j.key)]]

/-- Witness for the amended C4 at a concrete input: `maxRetries = 1`,
one dispatched job; the always-failing worker yields exactly one
terminal error after its two invocations, and a worker failing once then
succeeding deletes the pending entry with no terminal error. -/
theorem claim_C4_witness :
    exec { maxConcurrency := some 1, maxRetries := 1 }
      { work := [], pending := [(1, "a")], concurrency := 1, starting := false,
        flushing := true, peeking := false, needsFlush := false, needsDrain := true,
        nextKey := 2,
        tasks := [Task.workerFirst { key := 1, work := "a", done := false, pokeErr := none }],
        trace := [], dead := [] }
      (alwaysFailActs { key := 1, work := "a", done := false, pokeErr := none } (Err.io 1) 1) =
      { work := [], pending := [(1, "a")], concurrency := 1, starting := false,
        flushing := true, peeking := false, needsFlush := false, needsDrain := true,
        nextKey := 2, tasks := [],
        trace := [] ++ List.replicate 1 (Ev.runJob 1) ++ [Ev.error Err.maxRetriesReached],
        dead := [] ++ [1] } ∧
    exec { maxConcurrency := some 1, maxRetries := 1 }
      { work := [], pending := [(1, "a")], concurrency := 1, starting := false,
        flushing := true, peeking := false, needsFlush := false, needsDrain := true,
        nextKey := 2,
        tasks := [Task.workerFirst { key := 1, work := "a", done := false, pokeErr := none }],
        trace := [], dead := [] }
      (failThenSucceedActs { key := 1, work := "a", done := false, pokeErr := none } (Err.io 1) 1) =
      { work := [], pending := delEntry 1 [(1, "a")], concurrency := 1 - 1, starting := false,
        flushing := true, peeking := false, needsFlush := false, needsDrain := true,
        nextKey := 2,
        tasks := [Task.delCb { key := 1, work := "a", done := true, pokeErr := none } none],
        trace := [] ++ List.replicate 1 (Ev.runJob 1), dead := [] } :=
  ⟨(claim_C4_retry_termination { maxConcurrency := some 1, maxRetries := 1 } _
      { key := 1, work := "a", done := false, pokeErr := none } (Err.io 1) rfl rfl).1,
    (claim_C4_retry_termination { maxConcurrency := some 1, maxRetries := 1 } _
      { key := 1, work := "a", done := false, pokeErr := none } (Err.io 1) rfl rfl).2
      1 (Nat.le_refl 1)⟩

end LevelJobs
